import Mathlib

/-!
Verification of the FABS publishing pipeline (src/FabianAutoBloggerSystem/Program.cs).

Strings are modelled as `List Char` (Unicode scalar values), except where UTF-16
code-unit behaviour matters (prompt truncation), where `List Nat` code units are
used.  Filesystem and network effects are modelled by explicit oracles recording
the success or failure of each effectful step.
-/

set_option maxRecDepth 8000

/-! ## Generic string machinery (occurrence counting and String.Replace) -/

/-- `occursAt p s i` holds when pattern `p` occurs in `s` starting at index `i`. -/
def occursAt (p s : List Char) (i : Nat) : Bool :=
  p.isPrefixOf (s.drop i)

/-- Number of positions of `s` at which `p` occurs (occurrences may overlap). -/
def occCount (p s : List Char) : Nat :=
  (List.range s.length).countP (fun i => occursAt p s i)

/-- Fuelled worker for `replaceAll`; the fuel bounds the number of scan steps. -/
def replaceAllGo (p q : List Char) : Nat → List Char → List Char
  | 0, s => s
  | fuel + 1, s =>
    if !p.isEmpty && p.isPrefixOf s then q ++ replaceAllGo p q fuel (s.drop p.length)
    else
      match s with
      | [] => []
      | c :: cs => c :: replaceAllGo p q fuel cs

/-- Model of .NET `String.Replace(old, new)`: scan left to right, replace every
(non-overlapping, leftmost) occurrence of `p` by `q`, and continue after the
replacement.  (With an empty pattern .NET throws; the model returns `s`.) -/
def replaceAll (p q s : List Char) : List Char :=
  replaceAllGo p q s.length s

/-! ## Character and path helpers -/

/-- ASCII whitespace, modelling the characters relevant to .NET regex
whitespace and string trimming in this pipeline. -/
def wsChar (c : Char) : Bool :=
  c == ' ' || c == '\t' || c == '\n' || c == '\r'

/-- The double-quote character. -/
def quoteCh : Char := Char.ofNat 34

/-- Characters kept by the slug filter, modelling the regex class [a-z0-9-]. -/
def slugKeep (c : Char) : Bool :=
  (97 ≤ c.toNat && c.toNat ≤ 122) || (48 ≤ c.toNat && c.toNat ≤ 57) || c == '-'

/-- Model of .NET `string.Trim()` restricted to ASCII whitespace. -/
def trimAsciiWs (s : List Char) : List Char :=
  ((s.dropWhile wsChar).reverse.dropWhile wsChar).reverse

/-- Model of `string.IsNullOrWhiteSpace` on a non-null string. -/
def isBlank (s : List Char) : Bool :=
  s.all wsChar

/-- The file-name component of a path: everything after the last '/'. -/
def fileNameOf (p : List Char) : List Char :=
  (p.reverse.takeWhile (fun c => c != '/')).reverse

/-- Remove the last extension (from the final '.') of a file name. -/
def stripLastExt (f : List Char) : List Char :=
  if '.' ∈ f then ((f.reverse.dropWhile (fun c => c != '.')).drop 1).reverse else f

/-- Model of `Path.GetFileNameWithoutExtension`. -/
def fileNameWithoutExt (p : List Char) : List Char :=
  stripLastExt (fileNameOf p)

/-- Model of `Path.GetExtension` on a file name: the suffix from the last '.',
including the dot; empty when there is no dot. -/
def extOf (f : List Char) : List Char :=
  if '.' ∈ f then '.' :: (f.reverse.takeWhile (fun c => c != '.')).reverse else []

/-- Model of `Path.ChangeExtension p newExt`: strip the last extension of the
file-name component and append `newExt` (which carries its leading dot). -/
def changeExtension (p newExt : List Char) : List Char :=
  (if '.' ∈ fileNameOf p then ((p.reverse.dropWhile (fun c => c != '.')).drop 1).reverse else p)
    ++ newExt

/-! ## Calendar dates -/

/-- A calendar date as used by the pipeline. -/
structure PDate where
  year : Nat
  month : Nat
  day : Nat
deriving DecidableEq

/-- Decimal digit test. -/
def isDigitCh (c : Char) : Bool :=
  48 ≤ c.toNat && c.toNat ≤ 57

/-- Value of a decimal digit character. -/
def digitVal (c : Char) : Nat := c.toNat - 48

/-- Model of .NET `DateTime.Parse` restricted to the ISO `yyyy-MM-dd` form,
the only format produced and consumed by this pipeline.  Returns `none`
exactly where `DateTime.Parse` would throw on such inputs. -/
def tryParseDate (s : List Char) : Option PDate :=
  match s with
  | [y1, y2, y3, y4, h1, m1, m2, h2, d1, d2] =>
    if isDigitCh y1 && isDigitCh y2 && isDigitCh y3 && isDigitCh y4 &&
        h1 == '-' && isDigitCh m1 && isDigitCh m2 && h2 == '-' &&
        isDigitCh d1 && isDigitCh d2 then
      let y := ((digitVal y1 * 10 + digitVal y2) * 10 + digitVal y3) * 10 + digitVal y4
      let m := digitVal m1 * 10 + digitVal m2
      let d := digitVal d1 * 10 + digitVal d2
      if 1 ≤ y && 1 ≤ m && m ≤ 12 && 1 ≤ d && d ≤ 31 then some ⟨y, m, d⟩ else none
    else none
  | _ => none

/-- Digit character of `n < 10`. -/
def digitChar (n : Nat) : Char := Char.ofNat (48 + n)

/-- Fuelled decimal printer. -/
def natDigitsGo : Nat → Nat → List Char
  | 0, _ => []
  | fuel + 1, n =>
    if n < 10 then [digitChar n] else natDigitsGo fuel (n / 10) ++ [digitChar (n % 10)]

/-- Decimal digits of a natural number (no sign, no padding). -/
def natDigits (n : Nat) : List Char := natDigitsGo (n + 1) n

/-- Left-pad with '0' to width `w`, modelling the D4/D2 format specifiers. -/
def padZeroes (w : Nat) (s : List Char) : List Char :=
  List.replicate (w - s.length) '0' ++ s

/-- Four-digit zero-padded year (format specifier D4 / yyyy). -/
def pad4 (n : Nat) : List Char := padZeroes 4 (natDigits n)

/-- Two-digit zero-padded month or day (format specifier D2 / MM, dd). -/
def pad2 (n : Nat) : List Char := padZeroes 2 (natDigits n)

/-- Model of `DateTime.ToString "yyyy-MM-dd"`. -/
def formatDate (d : PDate) : List Char :=
  pad4 d.year ++ '-' :: (pad2 d.month ++ '-' :: pad2 d.day)

/-- The year/month partition `$"{date.Year:D4}/{date.Month:D2}"` used for images. -/
def yearMonthOf (d : PDate) : List Char :=
  pad4 d.year ++ '/' :: pad2 d.month

/-! ## CreateSlug (Program.cs lines 216-234) -/

/-- Collapse runs of '-' into a single '-', modelling `Regex.Replace(s, "-+", "-")`. -/
def squeezeDashes : List Char → List Char
  | [] => []
  | [c] => [c]
  | c1 :: c2 :: rest =>
    if c1 == '-' && c2 == '-' then squeezeDashes (c2 :: rest)
    else c1 :: squeezeDashes (c2 :: rest)

/-- Model of `string.Trim('-')`. -/
def trimDashes (s : List Char) : List Char :=
  ((s.dropWhile (fun c => c == '-')).reverse.dropWhile (fun c => c == '-')).reverse

/-- Model of `CreateSlug(title, date)`.  Returns `none` exactly when
`DateTime.Parse date` would throw. -/
def createSlug (title date : List Char) : Option (List Char) :=
  let s1 := title.map Char.toLower
  let s2 := replaceAll [' '] ['-'] s1
  let s3 := replaceAll ['—'] ['-'] s2
  let s4 := replaceAll ['+'] ("plus".data) s3
  let s5 := replaceAll ['&'] ("and".data) s4
  let s6 := s5.filter slugKeep
  let s7 := trimDashes (squeezeDashes s6)
  match tryParseDate date with
  | none => none
  | some d => some (formatDate d ++ '-' :: s7)

/-! ## The frontmatter-field regex (ExtractBlogMetadata, lines 200-214)

Model of .NET `Regex.Match(body, key + "\s*=\s*\"([^\"]+)\"")`: the scan tries
every start position left to right; at a position the literal key must match,
then optional whitespace, '=', optional whitespace, an opening quote, a
non-empty greedy run of non-quote characters, and a closing quote. -/

/-- After the literal key: consume `\s* = \s* "` and return the remainder. -/
def afterKey (s : List Char) : Option (List Char) :=
  match s.dropWhile wsChar with
  | c :: s2 =>
    if c == '=' then
      match s2.dropWhile wsChar with
      | c2 :: s4 => if c2 == quoteCh then some s4 else none
      | [] => none
    else none
  | [] => none

/-- Greedy capture `([^"]+)"`: the run up to the next quote, which must exist
and be non-empty. -/
def captureVal (s : List Char) : Option (List Char) :=
  let v := s.takeWhile (fun c => c != quoteCh)
  if v.isEmpty then none
  else if v.length < s.length then some v else none

/-- Attempt the whole field pattern at the start of `s`. -/
def matchFieldAt (key s : List Char) : Option (List Char) :=
  if key.isPrefixOf s then
    match afterKey (s.drop key.length) with
    | some rest => captureVal rest
    | none => none
  else none

/-- Fuelled left-to-right scan for the first match. -/
def firstFieldGo (key : List Char) : Nat → List Char → Option (List Char)
  | 0, _ => none
  | fuel + 1, s =>
    match matchFieldAt key s with
    | some v => some v
    | none =>
      match s with
      | [] => none
      | _ :: cs => firstFieldGo key fuel cs

/-- First (leftmost) captured value of the field pattern for `key` in `body`. -/
def firstFieldValue (key body : List Char) : Option (List Char) :=
  firstFieldGo key (body.length + 1) body

/-- The resolved publish date string: the first `date = "..."` capture, else
the current date (`DateTime.Now`) formatted `yyyy-MM-dd`. -/
def resolvedPublishDate (blogPost : List Char) (now : PDate) : List Char :=
  match firstFieldValue ("date".data) blogPost with
  | some v => v
  | none => formatDate now

/-- The resolved title: the first `title = "..."` capture, else the source
document file name without its extension. -/
def resolvedTitle (blogPost docxPath : List Char) : List Char :=
  match firstFieldValue ("title".data) blogPost with
  | some v => v
  | none => fileNameWithoutExt docxPath

/-- Model of `ExtractBlogMetadata(blogPost, docxPath)`.  `now` is the current
date (`DateTime.Now`).  Returns `none` exactly when the code would throw
(`DateTime.Parse` inside `CreateSlug` on an unparsable date field). -/
def extractBlogMetadata (blogPost docxPath : List Char) (now : PDate) :
    Option (List Char × List Char) :=
  match createSlug (resolvedTitle blogPost docxPath) (resolvedPublishDate blogPost now) with
  | none => none
  | some slug => some (resolvedPublishDate blogPost now, slug)

/-! ## Batch discovery and archival naming (Program.cs lines 78-80, 148-151) -/

/-- `p.isPrefixOf`-based startsWith on character lists. -/
def startsWithCh (p s : List Char) : Bool := p.isPrefixOf s

/-- `isSuffixOf`-based endsWith on character lists. -/
def endsWithCh (p s : List Char) : Bool := p.isSuffixOf s

/-- The discovery scan of the drafts folder: `Directory.GetFiles(folder, "*.docx")`
keeps names ending in ".docx", and the filter drops names starting with "~$". -/
def discoverySelects (name : List Char) : Bool :=
  endsWithCh (".docx".data) name && !startsWithCh ("~$".data) name

/-- The archival rename target: `Path.ChangeExtension(docxPath, ".published.docx")`. -/
def archiveName (docxPath : List Char) : List Char :=
  changeExtension docxPath (".published.docx".data)

/-! ## The batch pipeline (RunFullPublishingPipelineAsync, lines 47-98, and Main) -/

/-- Environment of one batch run: which configured directories exist, the file
names present in the drafts folder, and whether creating the staging folder
throws. -/
structure PipelineEnv where
  draftsFolderExists : Bool
  blogContentExists : Bool
  draftsFiles : List (List Char)
  createStagingThrows : Bool
deriving DecidableEq

/-- How `RunFullPublishingPipelineAsync` ends when it returns normally. -/
inductive PipelineStop where
  | missingDraftsFolder
  | missingBlogContent
  | noDocuments
  | completedBatch (docs : List (List Char))
deriving DecidableEq

/-- Model of `RunFullPublishingPipelineAsync`: the early-exit structure of the
batch.  `Except.error` marks an exception escaping to `Main`'s catch block;
note that a missing drafts folder is a plain `return`, not an exception. -/
def runFullPublishingPipeline (env : PipelineEnv) : Except (List Char) PipelineStop :=
  if !env.draftsFolderExists then .ok .missingDraftsFolder
  else if !env.blogContentExists then .ok .missingBlogContent
  else
    let docs := env.draftsFiles.filter discoverySelects
    if docs.isEmpty then .ok .noDocuments
    else if env.createStagingThrows then .error ("could not create final draft folder".data)
    else .ok (.completedBatch docs)

/-- Model of `Main`: exit status 1 only when an exception escapes the pipeline,
implicit exit status 0 on normal return. -/
def mainExitCode (env : PipelineEnv) : Nat :=
  match runFullPublishingPipeline env with
  | .ok _ => 0
  | .error _ => 1

/-! ## Document reader (ExtractWordContentAndImages, lines 276-336) -/

/-- A paragraph is a list of runs, each contributing its text. -/
abbrev DocPara := List (List Char)

/-- Model of `GetParagraphText`: concatenate the text of every run, then trim. -/
def getParagraphText (runs : DocPara) : List Char :=
  trimAsciiWs runs.flatten

/-- Join pieces with a separator, modelling `string.Join`. -/
def joinSep (sep : List Char) (xs : List (List Char)) : List Char :=
  (xs.intersperse sep).flatten

/-- A structural element of the document body: a paragraph (a list of runs) or
a table (rows, each a list of cells, each cell a list of paragraphs). -/
inductive DocElement where
  | para (runs : DocPara)
  | table (rows : List (List (List DocPara)))

/-- Rendering of one body element into the extracted content, following the
StringBuilder appends of the source. -/
def renderElement : DocElement → List Char
  | .para runs =>
    let t := getParagraphText runs
    if isBlank t then [] else t ++ ['\n', '\n']
  | .table rows =>
    ("[TABLE CONTENT]".data) ++ '\n' ::
    ((rows.map (fun row =>
      let cells := (row.map (fun cell =>
        joinSep (" ".data)
          ((cell.map getParagraphText).filter (fun t => !isBlank t)))).filter
            (fun t => !isBlank t)
      if cells.isEmpty then []
      else ("| ".data) ++ joinSep (" | ".data) cells ++ (" |".data) ++ ['\n'])).flatten ++
      (("[/TABLE]".data) ++ ['\n', '\n']))

/-- How opening the Word document goes: the open/parse throws, the parsed body
is null, or a body is obtained (with the sibling image files the directory
scan would find, which happens after the null-body check). -/
inductive ReaderOutcome where
  | openThrows (msg : List Char)
  | nullBody
  | okBody (elems : List DocElement) (dirImages : List (List Char))

/-- Model of `ExtractWordContentAndImages`: total (never throws to the caller);
failure to open or parse yields a placeholder or error-describing body and an
empty image list. -/
def extractWordContentAndImages : ReaderOutcome → List Char × List (List Char)
  | .openThrows msg => (("Error extracting Word content: ".data) ++ msg, [])
  | .nullBody => (("Could not extract content.".data), [])
  | .okBody elems dirImages => ((elems.map renderElement).flatten, dirImages)

/-! ## Image relocation (HandleImagesForPublishingAsync, lines 160-198) -/

/-- The in-draft image reference `images/<filename>`. -/
def refPat (f : List Char) : List Char := ("images/".data) ++ f

/-- The rewritten reference `/img/<yearMonth>/<filename>`. -/
def imgPat (ym f : List Char) : List Char := ("/img/".data) ++ (ym ++ '/' :: f)

/-- The reference-rewriting loop: for each image path whose file exists on
disk, replace every occurrence of `images/<filename>` by
`/img/<yearMonth>/<filename>` in the post. -/
def rewriteImages (ym : List Char) (onDisk : List Char → Bool)
    (post : List Char) (imagePaths : List (List Char)) : List Char :=
  imagePaths.foldl
    (fun acc p =>
      if onDisk p then replaceAll (refPat (fileNameOf p)) (imgPat ym (fileNameOf p)) acc
      else acc)
    post

/-- Model of `HandleImagesForPublishingAsync`: no-op on zero images, otherwise
parses the publish date (`none` models the `DateTime.Parse` throw) and rewrites
references for images present on disk. -/
def handleImagesForPublishing (post : List Char) (imagePaths : List (List Char))
    (onDisk : List Char → Bool) (publishDate : List Char) : Option (List Char) :=
  if imagePaths.isEmpty then some post
  else
    match tryParseDate publishDate with
    | none => none
    | some d => some (rewriteImages (yearMonthOf d) onDisk post imagePaths)

/-! ## Per-document processing (ProcessDocumentToPublishAsync, lines 100-158) -/

/-- Oracle for the effectful steps of processing one document.  `writerResult`
is the generation response (`none` models a thrown/timed-out call), and the
`*Throws` flags tell whether the corresponding filesystem operation throws. -/
structure DocOracle where
  reader : ReaderOutcome
  writerResult : Option (List Char)
  copyThrows : Bool
  stagingThrows : Bool
  publishThrows : Bool
  moveThrows : Bool

/-- Observable outcome of processing one document. -/
structure DocResult where
  stagingWritten : Bool
  publishWritten : Bool
  archived : Bool
  stagedContent : Option (List Char)
deriving DecidableEq

/-- A `DocResult` for a document abandoned before any write. -/
def DocResult.aborted : DocResult := ⟨false, false, false, none⟩

/-- Model of `ProcessDocumentToPublishAsync`.  Every exception inside the body
is caught at the per-document boundary, so each failing step simply stops the
remaining steps.  The original document is archived (renamed) only by the final
`File.Move`, which itself may throw. -/
def processDocumentToPublish (o : DocOracle) (onDisk : List Char → Bool)
    (docxPath : List Char) (now : PDate) : DocResult :=
  let extracted := extractWordContentAndImages o.reader
  match o.writerResult with
  | none => .aborted
  | some blogPost =>
    if blogPost.isEmpty then .aborted
    else
      match extractBlogMetadata blogPost docxPath now with
      | none => .aborted
      | some (publishDate, _slug) =>
        if o.copyThrows && extracted.2.any onDisk then .aborted
        else
          match handleImagesForPublishing blogPost extracted.2 onDisk publishDate with
          | none => .aborted
          | some updated =>
            if o.stagingThrows then .aborted
            else if o.publishThrows then ⟨true, false, false, some updated⟩
            else ⟨true, true, !o.moveThrows, some updated⟩

/-! ## Writer prompt truncation (CreateWriterPrompt, lines 338-360)

The prompt is built by C# string interpolation over UTF-16 strings, and
`Substring(0, Math.Min(k, s.Length))` cuts after `k` UTF-16 code units.  This
part of the model therefore works on lists of UTF-16 code units. -/

/-- UTF-16 encoding of one Unicode scalar value. -/
def charUnits (c : Char) : List Nat :=
  let n := c.toNat
  if n < 65536 then [n]
  else [55296 + (n - 65536) / 1024, 56320 + (n - 65536) % 1024]

/-- UTF-16 code units of a string. -/
def utf16Units (s : String) : List Nat :=
  (s.data.map charUnits).flatten

/-- High-surrogate test (0xD800-0xDBFF). -/
def isHighSurr (u : Nat) : Bool := 55296 ≤ u && u ≤ 56319

/-- Low-surrogate test (0xDC00-0xDFFF). -/
def isLowSurr (u : Nat) : Bool := 56320 ≤ u && u ≤ 57343

/-- A code-unit sequence is well formed when every high surrogate is followed
by a low surrogate and no low surrogate appears unpaired: cuts that split a
character make this false. -/
def utf16WellFormed : List Nat → Bool
  | [] => true
  | u :: rest =>
    if isHighSurr u then
      match rest with
      | v :: rest2 => isLowSurr v && utf16WellFormed rest2
      | [] => false
    else !isLowSurr u && utf16WellFormed rest

/-- `template.Substring(0, Math.Min(1000, template.Length))`. -/
def truncStyle (t : List Nat) : List Nat := t.take 1000

/-- `content.Substring(0, Math.Min(1500, content.Length))`. -/
def truncBody (c : List Nat) : List Nat := c.take 1500

/-- Literal prompt text before the style exemplar. -/
def promptPart1 : List Nat :=
  utf16Units "Transform this Word document content into a complete blog post in Fabian Williams' style.\n\nSTYLE TEMPLATE:\n"

/-- Literal prompt text between the truncated exemplar and the truncated body. -/
def promptPart2 : List Nat :=
  utf16Units "...\n\nCONTENT TO TRANSFORM:\n"

/-- Literal prompt text after the truncated body; `today` is interpolated into
the frontmatter requirement line. -/
def promptPart3 (today : List Nat) : List Nat :=
  utf16Units "...\n\nREQUIREMENTS:\n- Complete Hugo frontmatter with +++, author \"Fabian Williams\", date \"" ++
  today ++
  utf16Units "\"\n- Emoji headers (🚀 🛠️ 🧠 📋 🎯) matching template style\n- Technical but conversational tone like Fabian's\n- Include code examples and practical advice\n- For images, use path format: images/filename.png (will be updated automatically)\n- Generate the COMPLETE markdown blog post ready for Hugo publishing\n\nGenerate the complete blog post:"

/-- Model of `CreateWriterPrompt(content, template)` over UTF-16 code units. -/
def createWriterPrompt (content template today : List Nat) : List Nat :=
  promptPart1 ++ truncStyle template ++ promptPart2 ++ truncBody content ++ promptPart3 today

/-! ## Lemmas: occurrence counting and replaceAll -/

theorem occursAt_zero (p s : List Char) : occursAt p s 0 = p.isPrefixOf s := by
  simp [occursAt]

theorem occursAt_cons_succ (p : List Char) (c : Char) (s : List Char) (i : Nat) :
    occursAt p (c :: s) (i + 1) = occursAt p s i := by
  simp [occursAt]

theorem occursAt_append_add (p a b : List Char) (i : Nat) :
    occursAt p (a ++ b) (a.length + i) = occursAt p b i := by
  simp [occursAt, List.drop_append]

theorem occursAt_true_iff (p s : List Char) (i : Nat) :
    occursAt p s i = true ↔ p <+: s.drop i := by
  simp [occursAt, List.isPrefixOf_iff_prefix]

theorem occCount_nil (p : List Char) : occCount p [] = 0 := rfl


theorem isPrefixOf_eq_false_of_not (p s : List Char) (h : ¬ p <+: s) :
    p.isPrefixOf s = false := by
  rw [Bool.eq_false_iff]
  intro hb
  exact h (List.isPrefixOf_iff_prefix.mp hb)

theorem occCount_cons (p : List Char) (c : Char) (s : List Char) :
    occCount p (c :: s) = (if p.isPrefixOf (c :: s) then 1 else 0) + occCount p s := by
  unfold occCount
  rw [show (c :: s).length = s.length + 1 from rfl, List.range_succ_eq_map]
  rw [List.countP_cons, List.countP_map]
  have h1 : List.countP ((fun i => occursAt p (c :: s) i) ∘ Nat.succ) (List.range s.length) =
      (List.range s.length).countP fun i => occursAt p s i := by
    apply List.countP_congr
    intro i _
    simp [Function.comp, occursAt_cons_succ]
  rw [h1, occursAt_zero]
  omega

theorem occCount_eq_zero (p s : List Char) (hp : p ≠ []) :
    occCount p s = 0 ↔ ∀ i, occursAt p s i = false := by
  constructor
  · intro h i
    by_cases hi : i < s.length
    · have hz := List.countP_eq_zero.mp h
      have hmem : i ∈ List.range s.length := List.mem_range.mpr hi
      simpa using hz i hmem
    · have hdrop : s.drop i = [] := List.drop_eq_nil_of_le (by omega)
      unfold occursAt
      rw [hdrop]
      cases p with
      | nil => exact absurd rfl hp
      | cons a l => rfl
  · intro h
    apply List.countP_eq_zero.mpr
    intro i _
    simp [h i]

theorem replaceAllGo_nilstr (p q : List Char) (fuel : Nat) :
    replaceAllGo p q fuel [] = [] := by
  cases fuel with
  | zero => rfl
  | succ n =>
    cases p with
    | nil => simp [replaceAllGo, List.isEmpty]
    | cons a l => simp [replaceAllGo, List.isPrefixOf]

theorem replaceAllGo_succ_pos (p q s : List Char) (fuel : Nat) (hp : p ≠ [])
    (hpre : p <+: s) :
    replaceAllGo p q (fuel + 1) s = q ++ replaceAllGo p q fuel (s.drop p.length) := by
  have hc : (!p.isEmpty && p.isPrefixOf s) = true := by
    rw [List.isPrefixOf_iff_prefix.mpr hpre]
    cases p with
    | nil => exact absurd rfl hp
    | cons a l => rfl
  simp [replaceAllGo, hc]

theorem replaceAllGo_succ_neg (p q : List Char) (c : Char) (cs : List Char) (fuel : Nat)
    (hpre : ¬ p <+: (c :: cs)) :
    replaceAllGo p q (fuel + 1) (c :: cs) = c :: replaceAllGo p q fuel cs := by
  have hc : p.isPrefixOf (c :: cs) = false := isPrefixOf_eq_false_of_not _ _ hpre
  simp [replaceAllGo, hc]

theorem replaceAllGo_fuel (p q : List Char) :
    ∀ (n : Nat) (s : List Char), s.length ≤ n →
      replaceAllGo p q n s = replaceAllGo p q s.length s := by
  intro n
  induction n using Nat.strong_induction_on with
  | _ n ih =>
    intro s hs
    match n, s with
    | n, [] => rw [replaceAllGo_nilstr, replaceAllGo_nilstr]
    | 0, c :: cs => simp at hs
    | n + 1, c :: cs =>
      have hs' : cs.length ≤ n := by
        simp only [List.length_cons] at hs
        omega
      simp only [List.length_cons]
      by_cases hpre : p <+: (c :: cs)
      · by_cases hp : p = []
        · subst hp
          show replaceAllGo [] q (n + 1) (c :: cs) = replaceAllGo [] q (cs.length + 1) (c :: cs)
          simp [replaceAllGo, List.isEmpty]
          rw [ih n (by omega) cs hs', ih cs.length (by omega) cs (by omega)]
        · have hplen : 1 ≤ p.length := by
            cases p with
            | nil => exact absurd rfl hp
            | cons a l => simp
          rw [replaceAllGo_succ_pos p q _ n hp hpre,
            replaceAllGo_succ_pos p q _ cs.length hp hpre]
          have hd : ((c :: cs).drop p.length).length ≤ cs.length := by
            rw [List.length_drop]
            simp only [List.length_cons]
            omega
          rw [ih n (by omega) _ (le_trans hd hs'), ih cs.length (by omega) _ hd]
      · rw [replaceAllGo_succ_neg p q c cs n hpre,
          replaceAllGo_succ_neg p q c cs cs.length hpre]
        rw [ih n (by omega) cs hs', ih cs.length (by omega) cs (by omega)]

theorem replaceAll_nilstr (p q : List Char) : replaceAll p q [] = [] := rfl

theorem replaceAll_hit (p q s : List Char) (hp : p ≠ []) (hpre : p <+: s) :
    replaceAll p q s = q ++ replaceAll p q (s.drop p.length) := by
  cases s with
  | nil => exact absurd (List.prefix_nil.mp hpre) hp
  | cons c cs =>
    show replaceAllGo p q (cs.length + 1) (c :: cs) = _
    rw [replaceAllGo_succ_pos p q _ cs.length hp hpre]
    have hplen : 1 ≤ p.length := by
      cases p with
      | nil => exact absurd rfl hp
      | cons a l => simp
    have hd : ((c :: cs).drop p.length).length ≤ cs.length := by
      rw [List.length_drop]
      simp only [List.length_cons]
      omega
    rw [replaceAllGo_fuel p q cs.length _ hd]
    rfl

theorem replaceAll_miss (p q : List Char) (c : Char) (cs : List Char)
    (hpre : ¬ p <+: (c :: cs)) :
    replaceAll p q (c :: cs) = c :: replaceAll p q cs := by
  show replaceAllGo p q (cs.length + 1) (c :: cs) = _
  rw [replaceAllGo_succ_neg p q c cs cs.length hpre]
  rfl

theorem replaceAll_of_no_occur (p q s : List Char) (_hp : p ≠ [])
    (h : occCount p s = 0) : replaceAll p q s = s := by
  induction s with
  | nil => exact replaceAll_nilstr p q
  | cons c cs ih =>
    rw [occCount_cons] at h
    have h0 : ¬ p <+: (c :: cs) := by
      intro hb
      rw [List.isPrefixOf_iff_prefix.mpr hb] at h
      simp at h
    rw [replaceAll_miss p q c cs h0]
    have h1 : occCount p cs = 0 := by
      rw [isPrefixOf_eq_false_of_not _ _ h0] at h
      simpa using h
    rw [ih h1]

/-- No occurrence of `p` starts inside the `a` part of `a ++ b` (including
occurrences that would straddle the border). -/
def CleanSplit (p a b : List Char) : Prop :=
  ∀ i < a.length, occursAt p (a ++ b) i = false

theorem cleanSplit_cons (p : List Char) (c : Char) (a b : List Char)
    (h : CleanSplit p (c :: a) b) : CleanSplit p a b := by
  intro i hi
  have h1 := h (i + 1) (by simp only [List.length_cons]; omega)
  rwa [List.cons_append, occursAt_cons_succ] at h1

theorem replaceAll_append_clean (p q a b : List Char) (h : CleanSplit p a b) :
    replaceAll p q (a ++ b) = a ++ replaceAll p q b := by
  induction a with
  | nil => rfl
  | cons c a' ih =>
    have h0 : ¬ p <+: (c :: (a' ++ b)) := by
      intro hb
      have h1 := h 0 (by simp)
      rw [List.cons_append, occursAt_zero, List.isPrefixOf_iff_prefix.mpr hb] at h1
      exact Bool.true_eq_false.mp h1
    rw [List.cons_append, replaceAll_miss p q _ _ h0, ih (cleanSplit_cons p c a' b h),
      List.cons_append]

theorem occCount_append_clean (p a b : List Char) (h : CleanSplit p a b) :
    occCount p (a ++ b) = occCount p b := by
  induction a with
  | nil => rfl
  | cons c a' ih =>
    rw [List.cons_append, occCount_cons]
    have h0 : p.isPrefixOf (c :: (a' ++ b)) = false := by
      have h1 := h 0 (by simp)
      rwa [List.cons_append, occursAt_zero] at h1
    rw [h0]
    simp only [Bool.false_eq_true, if_false, Nat.zero_add]
    exact ih (cleanSplit_cons p c a' b h)

theorem occCount_self_append (p b : List Char) (hp : p ≠ [])
    (hint : ∀ i, 0 < i → i < p.length → occursAt p (p ++ b) i = false) :
    occCount p (p ++ b) = 1 + occCount p b := by
  unfold occCount
  rw [List.length_append, List.range_add, List.countP_append]
  have h2 : List.countP (fun i => occursAt p (p ++ b) i)
      ((List.range b.length).map (fun x => p.length + x)) =
      List.countP (fun i => occursAt p b i) (List.range b.length) := by
    rw [List.countP_map]
    apply List.countP_congr
    intro i _
    simp [Function.comp, occursAt_append_add]
  obtain ⟨n, hn⟩ : ∃ n, p.length = n + 1 := by
    cases p with
    | nil => exact absurd rfl hp
    | cons x l => exact ⟨l.length, by simp⟩
  have h1 : List.countP (fun i => occursAt p (p ++ b) i) (List.range p.length) = 1 := by
    rw [hn, List.range_succ_eq_map, List.countP_cons, List.countP_map]
    have hz : (occursAt p (p ++ b) 0 = true) := by
      rw [occursAt_zero, List.isPrefixOf_iff_prefix]
      exact List.prefix_append p b
    have hrest : List.countP ((fun i => occursAt p (p ++ b) i) ∘ Nat.succ) (List.range n) = 0 := by
      apply List.countP_eq_zero.mpr
      intro i hi
      have hilt : i < n := List.mem_range.mp hi
      simp only [Function.comp]
      rw [hint (Nat.succ i) (Nat.succ_pos i) (by omega)]
      simp
    rw [hrest, hz]
    rfl
  rw [h1, h2]

/-! ## Claim C1 -/

/-- C1: the claim says an archived document (renamed to `.published.docx`) is
never selected again by a later batch run's discovery scan.  The code renames
`MyPost.docx` to `MyPost.published.docx`, but that name still matches the
`*.docx` search pattern and does not start with `~$`, so a subsequent run's
discovery selects it again and the batch reprocesses it: the claim (and the
spec's stated intent of archival) is violated by the discovery glob. -/
theorem c1_archived_document_rediscovered :
    archiveName ("MyPost.docx".data) = ("MyPost.published.docx".data) ∧
    discoverySelects (archiveName ("MyPost.docx".data)) = true ∧
    runFullPublishingPipeline ⟨true, true, [archiveName ("MyPost.docx".data)], false⟩ =
      .ok (.completedBatch [("MyPost.published.docx".data)]) :=
  ⟨rfl, rfl, rfl⟩

/-! ## Claim C2 -/

/-- C2 counterexample: metadata resolution is not total.  On a draft whose
`date = "..."` field holds an unparsable value, `CreateSlug` calls
`DateTime.Parse` on that value and throws (modelled by `none`); the resolver
does not fall back to the current date. -/
theorem c2_metadata_resolution_not_total :
    extractBlogMetadata ("date = \"notadate\"".data) ("doc.docx".data) ⟨2025, 1, 5⟩ = none := by
  decide

/-- `CreateSlug` succeeds exactly when its date argument parses. -/
theorem createSlug_isSome (title date : List Char) :
    (createSlug title date).isSome = (tryParseDate date).isSome := by
  unfold createSlug
  cases h : tryParseDate date <;> simp [h]

/-- C2 amended: metadata resolution succeeds iff the draft's `date = "..."`
field, when present, carries a parsable value; when the field is absent the
resolver falls back to the current date at resolution time.  (The claim's
totality and its unparsable-date fallback fail; see the counterexample.) -/
theorem c2_metadata_resolution_totality (body path : List Char) (now : PDate)
    (hnow : tryParseDate (formatDate now) = some now) :
    ((extractBlogMetadata body path now).isSome = true ↔
      ∀ v, firstFieldValue ("date".data) body = some v → (tryParseDate v).isSome = true) ∧
    (firstFieldValue ("date".data) body = none →
      ∃ slug, extractBlogMetadata body path now = some (formatDate now, slug)) := by
  constructor
  · unfold extractBlogMetadata
    cases hd : firstFieldValue ("date".data) body with
    | none =>
      have hpd : resolvedPublishDate body now = formatDate now := by
        unfold resolvedPublishDate
        rw [hd]
      rw [hpd]
      have hsl : (createSlug (resolvedTitle body path) (formatDate now)).isSome = true := by
        rw [createSlug_isSome, hnow]
        rfl
      cases hcs : createSlug (resolvedTitle body path) (formatDate now) with
      | none => rw [hcs] at hsl; exact absurd hsl (by simp)
      | some slug =>
        simp only [Option.isSome_some, true_iff]
        intro v hv
        exact absurd hv (by simp)
    | some v =>
      have hpd : resolvedPublishDate body now = v := by
        unfold resolvedPublishDate
        rw [hd]
      rw [hpd]
      constructor
      · intro hsome w hw
        have hvw : v = w := by injection hw
        subst hvw
        rw [← createSlug_isSome (resolvedTitle body path) v]
        cases hc : createSlug (resolvedTitle body path) v with
        | none => rw [hc] at hsome; simp at hsome
        | some slug => rfl
      · intro hall
        have hv2 : (tryParseDate v).isSome = true := hall v rfl
        have hcs := createSlug_isSome (resolvedTitle body path) v
        rw [hv2] at hcs
        cases hc : createSlug (resolvedTitle body path) v with
        | none => rw [hc] at hcs; simp at hcs
        | some slug => rfl
  · intro hd
    have hpd : resolvedPublishDate body now = formatDate now := by
      unfold resolvedPublishDate
      rw [hd]
    unfold extractBlogMetadata
    rw [hpd]
    have hsl : (createSlug (resolvedTitle body path) (formatDate now)).isSome = true := by
      rw [createSlug_isSome, hnow]
      rfl
    cases hcs : createSlug (resolvedTitle body path) (formatDate now) with
    | none => rw [hcs] at hsl; exact absurd hsl (by simp)
    | some slug => exact ⟨slug, rfl⟩

/-- Witness for C2's amended theorem at a concrete draft and date. -/
theorem c2_metadata_resolution_totality_witness :
    tryParseDate (formatDate ⟨2025, 1, 5⟩) = some ⟨2025, 1, 5⟩ ∧
    (((extractBlogMetadata ("hello".data) ("doc.docx".data) ⟨2025, 1, 5⟩).isSome = true ↔
        ∀ v, firstFieldValue ("date".data) ("hello".data) = some v →
          (tryParseDate v).isSome = true) ∧
      (firstFieldValue ("date".data) ("hello".data) = none →
        ∃ slug, extractBlogMetadata ("hello".data) ("doc.docx".data) ⟨2025, 1, 5⟩ =
          some (formatDate ⟨2025, 1, 5⟩, slug))) :=
  ⟨by decide, c2_metadata_resolution_totality ("hello".data) ("doc.docx".data) ⟨2025, 1, 5⟩
    (by decide)⟩

/-! ## Claim C3 -/

/-- C3 counterexample: resolving metadata twice from the same draft (and the
same source path) does not always yield an identical slug: a draft with no
`date = "..."` field takes the current date at resolution time, so two runs on
different days produce different slugs. -/
theorem c3_slug_time_dependent :
    extractBlogMetadata [] ("doc.docx".data) ⟨2025, 1, 5⟩ ≠
      extractBlogMetadata [] ("doc.docx".data) ⟨2025, 1, 6⟩ := by decide

/-- C3 amended: whenever the draft carries a `date = "..."` field, metadata
resolution is independent of the resolution time, so re-resolving the same
draft yields the identical slug; only drafts with no date field depend on the
current date. -/
theorem c3_slug_deterministic_with_date_field (body path : List Char) (n1 n2 : PDate)
    (v : List Char) (hd : firstFieldValue ("date".data) body = some v) :
    extractBlogMetadata body path n1 = extractBlogMetadata body path n2 := by
  have hpd : ∀ n : PDate, resolvedPublishDate body n = v := by
    intro n
    unfold resolvedPublishDate
    rw [hd]
  unfold extractBlogMetadata
  rw [hpd n1, hpd n2]

/-- Witness for C3's amended theorem at a concrete draft. -/
theorem c3_slug_deterministic_witness :
    firstFieldValue ("date".data) ("date = \"2025-01-05\"".data) = some ("2025-01-05".data) ∧
    extractBlogMetadata ("date = \"2025-01-05\"".data) ("doc.docx".data) ⟨2024, 3, 4⟩ =
      extractBlogMetadata ("date = \"2025-01-05\"".data) ("doc.docx".data) ⟨2026, 7, 8⟩ :=
  ⟨by decide, c3_slug_deterministic_with_date_field ("date = \"2025-01-05\"".data)
    ("doc.docx".data) ⟨2024, 3, 4⟩ ⟨2026, 7, 8⟩ ("2025-01-05".data) (by decide)⟩

/-! ## Claim C4 -/

/-- C4 counterexample: the claimed equivalence "archived iff both writes
succeeded" fails when the final rename itself throws: both the staging and the
publish write succeeded for the document, yet it is not archived. -/
theorem c4_archival_gating_move_failure :
    (processDocumentToPublish ⟨.okBody [] [], some ("hello".data), false, false, false, true⟩
        (fun _ => false) ("doc.docx".data) ⟨2025, 1, 5⟩).stagingWritten = true ∧
    (processDocumentToPublish ⟨.okBody [] [], some ("hello".data), false, false, false, true⟩
        (fun _ => false) ("doc.docx".data) ⟨2025, 1, 5⟩).publishWritten = true ∧
    (processDocumentToPublish ⟨.okBody [] [], some ("hello".data), false, false, false, true⟩
        (fun _ => false) ("doc.docx".data) ⟨2025, 1, 5⟩).archived = false := by decide

/-- C4 amended: a document is archived iff the staging write and the publish
write both succeeded for it AND the archival rename itself does not throw; in
particular archived implies both writes succeeded, and after two successful
writes only a rename failure can prevent archival. -/
theorem c4_archival_gating (o : DocOracle) (onDisk : List Char → Bool)
    (docxPath : List Char) (now : PDate) :
    (processDocumentToPublish o onDisk docxPath now).archived =
      ((processDocumentToPublish o onDisk docxPath now).stagingWritten &&
        (processDocumentToPublish o onDisk docxPath now).publishWritten &&
        !o.moveThrows) := by
  unfold processDocumentToPublish
  cases o.writerResult with
  | none => rfl
  | some blogPost =>
    by_cases h1 : blogPost.isEmpty
    · simp [h1, DocResult.aborted]
    · simp only [h1, Bool.false_eq_true, if_false, if_neg]
      cases extractBlogMetadata blogPost docxPath now with
      | none => rfl
      | some pr =>
        cases pr with
        | mk publishDate slug =>
          by_cases h2 : (o.copyThrows && (extractWordContentAndImages o.reader).2.any onDisk) = true
          · simp [h2, DocResult.aborted]
          · simp only [h2, Bool.false_eq_true, if_false, if_neg]
            cases handleImagesForPublishing blogPost (extractWordContentAndImages o.reader).2
                onDisk publishDate with
            | none => rfl
            | some updated =>
              by_cases h3 : o.stagingThrows
              · simp [h3, DocResult.aborted]
              · by_cases h4 : o.publishThrows
                · simp [h3, h4]
                · simp [h3, h4]

/-! ## Claim C5 -/

/-- C5 counterexample: when the configured drafts folder does not exist the
pipeline prints a message and returns normally, so `Main` finishes without an
exception and the process exits with status 0, not a non-zero status as
claimed. -/
theorem c5_missing_drafts_exit_status_zero :
    runFullPublishingPipeline ⟨false, true, [("a.docx".data)], false⟩ =
      .ok .missingDraftsFolder ∧
    mainExitCode ⟨false, true, [("a.docx".data)], false⟩ = 0 :=
  ⟨rfl, rfl⟩

/-- C5 amended: a missing drafts folder aborts the whole batch before any
document is discovered or processed, but by an early normal return: the
process terminates with exit status 0 (a non-zero status arises only from an
exception escaping the pipeline). -/
theorem c5_missing_drafts_aborts_batch (env : PipelineEnv)
    (h : env.draftsFolderExists = false) :
    runFullPublishingPipeline env = .ok .missingDraftsFolder ∧ mainExitCode env = 0 := by
  have h1 : runFullPublishingPipeline env = .ok .missingDraftsFolder := by
    unfold runFullPublishingPipeline
    rw [h]
    rfl
  refine ⟨h1, ?_⟩
  unfold mainExitCode
  rw [h1]

/-- Witness for C5's amended theorem at a concrete environment. -/
theorem c5_missing_drafts_aborts_batch_witness :
    (PipelineEnv.mk false true [("a.docx".data)] false).draftsFolderExists = false ∧
    (runFullPublishingPipeline (PipelineEnv.mk false true [("a.docx".data)] false) =
        .ok .missingDraftsFolder ∧
      mainExitCode (PipelineEnv.mk false true [("a.docx".data)] false) = 0) :=
  ⟨rfl, c5_missing_drafts_aborts_batch (PipelineEnv.mk false true [("a.docx".data)] false) rfl⟩

/-! ## Claim C6 -/

/-- C6 counterexample: for the all-punctuation title `+++` and date
`2025-01-05`, slug creation does not return the bare date prefix
`2025-01-05`: the `+` characters are rewritten to the word `plus` before the
punctuation strip, so the claimed slug value is wrong. -/
theorem c6_slug_boundary_not_bare_date :
    createSlug ("+++".data) ("2025-01-05".data) ≠ some ("2025-01-05".data) := by decide

/-- C6 amended: for title `+++` and date `2025-01-05`, slug creation does not
fail and yields the well-formed slug `2025-01-05-plusplusplus`: each `+` is
replaced by the literal word `plus` (as the spec's own slug algorithm step 2
requires), so the result is the date prefix, a separator, and `plusplusplus`,
with no dangling separator. -/
theorem c6_slug_boundary_plus_title :
    createSlug ("+++".data) ("2025-01-05".data) = some ("2025-01-05-plusplusplus".data) := by
  decide

/-! ## Claim C8 -/

/-- C8: whenever the reader fails to open or parse the document container (the
open throws, or the parsed body is null), it does not throw to its caller: it
returns the placeholder body `Could not extract content.` or an
error-describing string, together with an empty image list. -/
theorem c8_reader_failure_policy (r : ReaderOutcome)
    (h : (∃ msg, r = .openThrows msg) ∨ r = .nullBody) :
    (extractWordContentAndImages r).2 = [] ∧
      ((extractWordContentAndImages r).1 = ("Could not extract content.".data) ∨
        ∃ msg, (extractWordContentAndImages r).1 =
          ("Error extracting Word content: ".data) ++ msg) := by
  rcases h with ⟨msg, rfl⟩ | rfl
  · exact ⟨rfl, Or.inr ⟨msg, rfl⟩⟩
  · exact ⟨rfl, Or.inl rfl⟩

/-- Witness for C8 at a concrete failing open. -/
theorem c8_reader_failure_policy_witness :
    ((∃ msg, ReaderOutcome.openThrows ("boom".data) = ReaderOutcome.openThrows msg) ∨
      ReaderOutcome.openThrows ("boom".data) = ReaderOutcome.nullBody) ∧
    ((extractWordContentAndImages (ReaderOutcome.openThrows ("boom".data))).2 = [] ∧
      ((extractWordContentAndImages (ReaderOutcome.openThrows ("boom".data))).1 =
          ("Could not extract content.".data) ∨
        ∃ msg, (extractWordContentAndImages (ReaderOutcome.openThrows ("boom".data))).1 =
          ("Error extracting Word content: ".data) ++ msg)) :=
  ⟨Or.inl ⟨("boom".data), rfl⟩,
    c8_reader_failure_policy (ReaderOutcome.openThrows ("boom".data))
      (Or.inl ⟨("boom".data), rfl⟩)⟩

/-! ## Claim C9 -/

/-- A style exemplar whose 999th and 1000th UTF-16 code units form a surrogate
pair (the rocket emoji U+1F680 after 999 ASCII characters). -/
def surrogateBoundaryExample : List Nat :=
  List.replicate 999 97 ++ [55357, 56960]

/-- C9 counterexample: prompt truncation does not always fall on character
boundaries.  `Substring(0, Math.Min(1000, len))` cuts after 1000 UTF-16 code
units, and on an exemplar whose unit 999 starts an astral character the cut
splits the surrogate pair, leaving a lone high surrogate (an ill-formed,
mid-character truncation). -/
theorem c9_truncation_splits_surrogate_pair :
    utf16WellFormed surrogateBoundaryExample = true ∧
    utf16WellFormed (truncStyle surrogateBoundaryExample) = false := by decide

/-- C9 amended: the generation request payload contains at most the first 1000
UTF-16 code units of the style exemplar and the first 1500 UTF-16 code units of
the extracted body (each a prefix of the full string, so nothing beyond those
lengths is sent, though a cut may split a surrogate pair); the full untruncated
strings are what the rest of the pipeline keeps using. -/
theorem c9_prompt_truncation (content template today : List Nat) :
    createWriterPrompt content template today =
      promptPart1 ++ truncStyle template ++ promptPart2 ++ truncBody content ++
        promptPart3 today ∧
    (truncStyle template).length ≤ 1000 ∧
    (truncBody content).length ≤ 1500 ∧
    truncStyle template <+: template ∧
    truncBody content <+: content := by
  refine ⟨rfl, ?_, ?_, ?_, ?_⟩
  · simp [truncStyle]
  · simp [truncBody]
  · exact List.take_prefix 1000 template
  · exact List.take_prefix 1500 content

/-! ## Claim C10: the field regex matches anywhere in the draft -/

theorem firstFieldGo_fuel (key : List Char) :
    ∀ (n : Nat) (s : List Char), s.length < n →
      firstFieldGo key n s = firstFieldGo key (s.length + 1) s := by
  intro n
  induction n using Nat.strong_induction_on with
  | _ n ih =>
    intro s hs
    match n, s with
    | 0, s => exact absurd hs (Nat.not_lt_zero _)
    | n + 1, s =>
      show firstFieldGo key (n + 1) s = firstFieldGo key (s.length + 1) s
      simp only [firstFieldGo]
      cases hm : matchFieldAt key s with
      | some v => rfl
      | none =>
        cases s with
        | nil => rfl
        | cons c cs =>
          have h1 : cs.length < n := by
            simp only [List.length_cons] at hs
            omega
          simp only [List.length_cons]
          rw [ih n (by omega) cs h1]

theorem firstFieldValue_cons_none (key : List Char) (c : Char) (cs : List Char)
    (h : matchFieldAt key (c :: cs) = none) :
    firstFieldValue key (c :: cs) = firstFieldValue key cs := by
  unfold firstFieldValue
  show firstFieldGo key (cs.length + 1 + 1) (c :: cs) = _
  simp only [firstFieldGo, h]

theorem firstFieldValue_of_matchAt (key s v : List Char)
    (h : matchFieldAt key s = some v) : firstFieldValue key s = some v := by
  unfold firstFieldValue
  cases s with
  | nil =>
    show firstFieldGo key 1 [] = some v
    simp only [firstFieldGo, h]
  | cons c cs =>
    show firstFieldGo key (cs.length + 1 + 1) (c :: cs) = some v
    simp only [firstFieldGo, h]

theorem firstFieldValue_append_skip (key pre rest : List Char)
    (h : ∀ i < pre.length, matchFieldAt key ((pre ++ rest).drop i) = none) :
    firstFieldValue key (pre ++ rest) = firstFieldValue key rest := by
  induction pre with
  | nil => rfl
  | cons c pre' ih =>
    rw [List.cons_append]
    have h0 : matchFieldAt key (c :: (pre' ++ rest)) = none := by
      have h1 := h 0 (by simp)
      simpa using h1
    rw [firstFieldValue_cons_none key c (pre' ++ rest) h0]
    apply ih
    intro i hi
    have h2 := h (i + 1) (by simp only [List.length_cons]; omega)
    simpa using h2

theorem takeWhile_append_all (p : Char → Bool) (a b : List Char)
    (h : ∀ c ∈ a, p c = true) :
    (a ++ b).takeWhile p = a ++ b.takeWhile p := by
  induction a with
  | nil => rfl
  | cons c a' ih =>
    rw [List.cons_append, List.takeWhile_cons, h c (by simp)]
    simp only [if_true]
    rw [ih (fun x hx => h x (by simp [hx]))]
    rfl

theorem captureVal_eq (v post : List Char) (hv : v ≠ []) (hq : quoteCh ∉ v) :
    captureVal (v ++ quoteCh :: post) = some v := by
  have htw : (v ++ quoteCh :: post).takeWhile (fun c => c != quoteCh) = v := by
    rw [takeWhile_append_all (fun c => c != quoteCh) v (quoteCh :: post) ?_]
    · simp [List.takeWhile_cons]
    · intro c hc
      have hne2 : c ≠ quoteCh := by
        intro hh
        exact hq (hh ▸ hc)
      simpa using hne2
  have hne : v.isEmpty = false := by
    cases v with
    | nil => exact absurd rfl hv
    | cons a l => rfl
  have hlen : v.length < (v ++ quoteCh :: post).length := by
    rw [List.length_append]
    simp
  simp only [captureVal, htw, hne, Bool.false_eq_true, if_false, if_pos hlen]

theorem matchFieldAt_instance (key v post : List Char) (hv : v ≠ []) (hq : quoteCh ∉ v) :
    matchFieldAt key (key ++ ((" = ".data) ++ (quoteCh :: v ++ quoteCh :: post))) = some v := by
  unfold matchFieldAt
  have hpre : key.isPrefixOf (key ++ ((" = ".data) ++ (quoteCh :: v ++ quoteCh :: post))) = true := by
    rw [List.isPrefixOf_iff_prefix]
    exact List.prefix_append _ _
  rw [hpre]
  simp only [if_true, List.drop_left]
  have hafter : afterKey ((" = ".data) ++ (quoteCh :: v ++ quoteCh :: post)) =
      some (v ++ quoteCh :: post) := rfl
  rw [hafter]
  show captureVal (v ++ quoteCh :: post) = some v
  exact captureVal_eq v post hv hq

/-- C10: the Metadata Resolver's field regex matches the first occurrence of
`key = "..."` anywhere in the draft body, with no regard to the `+++`
frontmatter fence: whenever the first occurrence lies after an arbitrary
prefix `pre` with no earlier match (for example inside a code block beyond the
frontmatter), that occurrence's captured value is the resolved metadata, and
it determines the resolved title (for key `title`) and publish date (for key
`date`). -/
theorem c10_field_regex_matches_anywhere (key pre v post : List Char)
    (hv : v ≠ []) (hq : quoteCh ∉ v)
    (hpre : ∀ i < pre.length,
      matchFieldAt key
        ((pre ++ (key ++ ((" = ".data) ++ (quoteCh :: v ++ quoteCh :: post)))).drop i) = none) :
    firstFieldValue key
        (pre ++ (key ++ ((" = ".data) ++ (quoteCh :: v ++ quoteCh :: post)))) = some v ∧
    (key = ("title".data) → ∀ path,
      resolvedTitle (pre ++ (key ++ ((" = ".data) ++ (quoteCh :: v ++ quoteCh :: post)))) path = v) ∧
    (key = ("date".data) → ∀ now,
      resolvedPublishDate (pre ++ (key ++ ((" = ".data) ++ (quoteCh :: v ++ quoteCh :: post)))) now = v) := by
  have hmain : firstFieldValue key
      (pre ++ (key ++ ((" = ".data) ++ (quoteCh :: v ++ quoteCh :: post)))) = some v := by
    rw [firstFieldValue_append_skip key pre _ hpre]
    exact firstFieldValue_of_matchAt _ _ _ (matchFieldAt_instance key v post hv hq)
  refine ⟨hmain, ?_, ?_⟩
  · intro hk path
    subst hk
    unfold resolvedTitle
    rw [hmain]
  · intro hk now
    subst hk
    unfold resolvedPublishDate
    rw [hmain]

/-- Prefix of the C10 witness draft: a frontmatter fence with no title field. -/
def c10Pre : List Char := ("+++\nauthor = 1\n+++\ncode: ".data)

/-- Captured value of the C10 witness draft. -/
def c10Val : List Char := ("Sneaky".data)

/-- Suffix of the C10 witness draft. -/
def c10Post : List Char := ("\nrest".data)

/-- The C10 witness draft: its only `title = "..."` occurrence lies after the
closing `+++` fence. -/
def c10Body : List Char :=
  c10Pre ++ (("title".data) ++ ((" = ".data) ++ (quoteCh :: c10Val ++ quoteCh :: c10Post)))

/-- Witness for C10 at a concrete draft whose only `title` field occurs after
the closing frontmatter fence. -/
theorem c10_field_regex_matches_anywhere_witness :
    (c10Val ≠ [] ∧ quoteCh ∉ c10Val ∧
      ∀ i < c10Pre.length, matchFieldAt ("title".data) (c10Body.drop i) = none) ∧
    (firstFieldValue ("title".data) c10Body = some c10Val ∧
      (("title".data) = ("title".data) → ∀ path, resolvedTitle c10Body path = c10Val) ∧
      (("title".data) = ("date".data) → ∀ now, resolvedPublishDate c10Body now = c10Val)) :=
  ⟨⟨by decide, by decide, by decide⟩,
    c10_field_regex_matches_anywhere ("title".data) c10Pre c10Val c10Post (by decide) (by decide)
      (by decide)⟩

/-! ## Claim C7: image reference rewriting

The body of a draft that references each of the document's images exactly once
is modelled structurally: a leading text chunk followed by reference segments,
each an `images/<file>` (or, once rewritten, `/img/<ym>/<file>`) reference and
a following text chunk.  The well-formedness facts below come from the
reader's image discovery filter (known image extensions, names without a path
separator). -/

/-- The image extensions recognised by the reader's directory scan. -/
def imageExtList : List (List Char) :=
  [(".png".data), (".jpg".data), (".jpeg".data), (".gif".data), (".webp".data)]

/-- A file name the image scan can produce: non-empty, no path separator, and
an extension in `imageExtList` up to case. -/
def goodImageName (f : List Char) : Prop :=
  f ≠ [] ∧ '/' ∉ f ∧ (extOf f).map Char.toLower ∈ imageExtList

instance goodImageNameDec (f : List Char) : Decidable (goodImageName f) := by
  unfold goodImageName
  infer_instance

theorem dropWhile_ne_mem (a : Char) :
    ∀ (l : List Char), a ∈ l → ∃ t, l.dropWhile (fun c => c != a) = a :: t := by
  intro l hl
  induction l with
  | nil => cases hl
  | cons c cs ih =>
    by_cases hc : c = a
    · subst hc
      exact ⟨cs, by simp [List.dropWhile_cons]⟩
    · have hb : (c != a) = true := by simpa using hc
      rw [List.dropWhile_cons, if_pos hb]
      apply ih
      cases hl with
      | head => exact absurd rfl hc
      | tail _ h => exact h

/-- The extension is a suffix of the file name. -/
theorem extOf_suffix (f : List Char) (h : '.' ∈ f) : extOf f <:+ f := by
  obtain ⟨rest, hd⟩ := dropWhile_ne_mem '.' f.reverse (by simpa using h)
  refine ⟨rest.reverse, ?_⟩
  unfold extOf
  rw [if_pos h]
  have hsplit : f.reverse.takeWhile (fun c => c != '.') ++ f.reverse.dropWhile (fun c => c != '.') =
      f.reverse := List.takeWhile_append_dropWhile _ _
  have : f = rest.reverse ++ ('.' :: (f.reverse.takeWhile (fun c => c != '.')).reverse) := by
    have h2 : f.reverse = f.reverse.takeWhile (fun c => c != '.') ++ ('.' :: rest) := by
      rw [← hd]
      exact hsplit.symm
    calc f = f.reverse.reverse := by rw [List.reverse_reverse]
    _ = (f.reverse.takeWhile (fun c => c != '.') ++ ('.' :: rest)).reverse := by rw [← h2]
    _ = ('.' :: rest).reverse ++ (f.reverse.takeWhile (fun c => c != '.')).reverse := by
        rw [List.reverse_append]
    _ = rest.reverse ++ ['.'] ++ (f.reverse.takeWhile (fun c => c != '.')).reverse := by
        rw [List.reverse_cons]
    _ = rest.reverse ++ ('.' :: (f.reverse.takeWhile (fun c => c != '.')).reverse) := by
        rw [List.append_assoc]
        rfl
  exact this.symm

/-- A good image name contains a dot. -/
theorem goodImageName.dot_mem (f : List Char) (hg : goodImageName f) : '.' ∈ f := by
  by_contra hdot
  have he : extOf f = [] := by
    unfold extOf
    rw [if_neg hdot]
  have := hg.2.2
  rw [he] at this
  exact absurd this (by decide)

/-- Discrimination principle: no suffix of a good image name can have a
lowercase image incompatible with every recognised extension. -/
theorem goodImageName.suffix_discrim (f : List Char) (hg : goodImageName f)
    (s : List Char) (hs : s <:+ f)
    (hcheck : ∀ m ∈ imageExtList, ¬ ((s.map Char.toLower) <:+ m) ∧
      ¬ (m <:+ (s.map Char.toLower))) : False := by
  have hdot : '.' ∈ f := goodImageName.dot_mem f hg
  have hext : extOf f <:+ f := extOf_suffix f hdot
  have hm := hg.2.2
  have hs2 : s.map Char.toLower <:+ f.map Char.toLower := hs.map Char.toLower
  have he2 : (extOf f).map Char.toLower <:+ f.map Char.toLower := hext.map Char.toLower
  rcases le_or_lt (s.map Char.toLower).length ((extOf f).map Char.toLower).length with hle | hlt
  · have h3 : s.map Char.toLower <:+ (extOf f).map Char.toLower :=
      List.suffix_of_suffix_length_le hs2 he2 hle
    exact (hcheck _ hm).1 h3
  · have h3 : (extOf f).map Char.toLower <:+ s.map Char.toLower :=
      List.suffix_of_suffix_length_le he2 hs2 (le_of_lt hlt)
    exact (hcheck _ hm).2 h3

/-- A good image name has at least four characters. -/
theorem goodImageName.four_le_length (f : List Char) (hg : goodImageName f) :
    4 ≤ f.length := by
  have hdot : '.' ∈ f := goodImageName.dot_mem f hg
  have hext : extOf f <:+ f := extOf_suffix f hdot
  have hlen : (extOf f).length ≤ f.length := hext.length_le
  have hm := hg.2.2
  have h4 : 4 ≤ (extOf f).length := by
    have : ((extOf f).map Char.toLower).length = (extOf f).length := List.length_map ..
    rw [← this]
    have hm2 : (extOf f).map Char.toLower = (".png".data) ∨
        (extOf f).map Char.toLower = (".jpg".data) ∨
        (extOf f).map Char.toLower = (".jpeg".data) ∨
        (extOf f).map Char.toLower = (".gif".data) ∨
        (extOf f).map Char.toLower = (".webp".data) := by
      simpa [imageExtList] using hm
    rcases hm2 with h | h | h | h | h <;> rw [h] <;> decide
  omega

/-- No suffix of a good image name is a non-slash prefix of `images/`. -/
theorem goodImageName.no_iprefix_suffix (f : List Char) (hg : goodImageName f) :
    ¬ (("i".data) <:+ f) ∧ ¬ (("im".data) <:+ f) ∧ ¬ (("ima".data) <:+ f) ∧
      ¬ (("imag".data) <:+ f) ∧ ¬ (("image".data) <:+ f) ∧ ¬ (("images".data) <:+ f) := by
  refine ⟨?_, ?_, ?_, ?_, ?_, ?_⟩ <;>
    exact fun hs => goodImageName.suffix_discrim f hg _ hs (by decide)

theorem take4_imgslash (t : List Char) : ((("img/".data)) ++ t).take 4 = ("img/".data) := by
  rw [List.take_append_of_le_length (by decide)]
  exact List.take_of_length_le (by decide)

/-- A slash-free name of length at least 4 cannot agree with `img/` as a
prefix in either direction. -/
theorem imgslash_conflict (f t : List Char) (h4 : 4 ≤ f.length) (hs : '/' ∉ f) :
    ¬ (f <+: (("img/".data) ++ t)) ∧ ¬ ((("img/".data)) <+: (f ++ t)) := by
  constructor
  · intro h
    have hpt := List.prefix_iff_eq_take.mp h
    have h1 : f.take 4 = ("img/".data) := by
      conv_lhs => rw [hpt]
      rw [List.take_take, min_eq_left h4, take4_imgslash]
    have h2 : '/' ∈ f.take 4 := by
      rw [h1]
      decide
    exact hs (List.take_subset _ _ h2)
  · intro h
    have hpt := List.prefix_iff_eq_take.mp h
    have h1 : f.take 4 = ("img/".data) := by
      have e : ((("img/".data))).length = 4 := by decide
      rw [e] at hpt
      rw [List.take_append_of_le_length h4] at hpt
      exact hpt.symm
    have h2 : '/' ∈ f.take 4 := by
      rw [h1]
      decide
    exact hs (List.take_subset _ _ h2)

/-- Shape facts about a year/month partition string. -/
def ymGood (ym : List Char) : Prop :=
  ym ≠ [] ∧ ∀ c ∈ ym, isDigitCh c = true ∨ c = '/'

theorem digitChar_digit (k : Nat) (hk : k < 10) : isDigitCh (digitChar k) = true := by
  interval_cases k <;> decide

theorem natDigitsGo_digit : ∀ (fuel n : Nat) (c : Char), c ∈ natDigitsGo fuel n →
    isDigitCh c = true := by
  intro fuel
  induction fuel with
  | zero => intro n c hc; cases hc
  | succ k ih =>
    intro n c hc
    unfold natDigitsGo at hc
    by_cases hn : n < 10
    · rw [if_pos hn] at hc
      have : c = digitChar n := by simpa using hc
      subst this
      exact digitChar_digit n hn
    · rw [if_neg hn] at hc
      rcases List.mem_append.mp hc with h | h
      · exact ih _ c h
      · have : c = digitChar (n % 10) := by simpa using h
        subst this
        exact digitChar_digit _ (Nat.mod_lt n (by omega))

theorem padZeroes_digit (w : Nat) (s : List Char) (c : Char)
    (hs : ∀ x ∈ s, isDigitCh x = true) (hc : c ∈ padZeroes w s) : isDigitCh c = true := by
  unfold padZeroes at hc
  rcases List.mem_append.mp hc with h | h
  · have : c = '0' := List.eq_of_mem_replicate h
    subst this
    decide
  · exact hs c h

theorem ymGood_yearMonthOf (d : PDate) : ymGood (yearMonthOf d) := by
  constructor
  · unfold yearMonthOf
    intro h
    rcases List.append_eq_nil.mp h with ⟨_, h2⟩
    cases h2
  · intro c hc
    unfold yearMonthOf at hc
    rcases List.mem_append.mp hc with h | h
    · exact Or.inl (padZeroes_digit 4 _ c (fun x hx => natDigitsGo_digit _ _ x hx) h)
    · rcases List.mem_cons.mp h with h2 | h2
      · exact Or.inr h2
      · exact Or.inl (padZeroes_digit 2 _ c (fun x hx => natDigitsGo_digit _ _ x hx) h2)

theorem ymGood_char_ne (ym : List Char) (h : ymGood ym) (c : Char) (hc : c ∈ ym) :
    c ≠ 'i' ∧ c ≠ 'a' := by
  have h2 := h.2 c hc
  constructor
  · rintro rfl
    rcases h2 with h2 | h2
    · exact absurd h2 (by decide)
    · exact absurd h2 (by decide)
  · rintro rfl
    rcases h2 with h2 | h2
    · exact absurd h2 (by decide)
    · exact absurd h2 (by decide)

/-- No occurrence of a slash-carrying pattern can start strictly inside a
slash-free block, unless some slash-free take of the pattern is a suffix of
the block. -/
theorem occursAt_inside_noSlash (p g w : List Char) (i : Nat)
    (hi : i < g.length) (hslash : '/' ∈ p) (hg : '/' ∉ g)
    (hsuf : ∀ m, 1 ≤ m → m < p.length → '/' ∉ p.take m → ¬ (p.take m <:+ g)) :
    occursAt p (g ++ w) i = false := by
  rw [Bool.eq_false_iff]
  intro hocc
  rw [occursAt_true_iff] at hocc
  have hdrop : (g ++ w).drop i = g.drop i ++ w :=
    List.drop_append_of_le_length (le_of_lt hi)
  rw [hdrop] at hocc
  have hpt := List.prefix_iff_eq_take.mp hocc
  by_cases hlen : p.length ≤ (g.drop i).length
  · have h1 : p = (g.drop i).take p.length := by
      have h2 := hpt
      rw [List.take_append_of_le_length hlen] at h2
      exact h2
    have h2 : '/' ∈ (g.drop i).take p.length := h1 ▸ hslash
    exact hg (List.drop_subset i g (List.take_subset _ _ h2))
  · have hm1 : 1 ≤ (g.drop i).length := by
      rw [List.length_drop]
      omega
    have hmp : (g.drop i).length < p.length := by omega
    have h1 : p.take (g.drop i).length = g.drop i := by
      conv_lhs => rw [hpt]
      rw [List.take_take, min_eq_left (le_of_lt hmp)]
      exact List.take_left ..
    by_cases hsl : '/' ∈ p.take (g.drop i).length
    · rw [h1] at hsl
      exact hg (List.drop_subset i g hsl)
    · refine hsuf _ hm1 hmp hsl ?_
      rw [h1]
      exact List.drop_suffix i g

theorem refPat_take_eq (f : List Char) (m : Nat) (hm : m ≤ 7) :
    (refPat f).take m = ("images/".data).take m := by
  unfold refPat
  rw [List.take_append_of_le_length]
  simpa using hm

theorem refPat_take_slash_ge (f : List Char) (m : Nat) (hm : 7 ≤ m) :
    '/' ∈ (refPat f).take m := by
  unfold refPat
  rw [List.take_append_eq_append_take]
  apply List.mem_append_left
  have h1 : (("images/".data)).take m = ("images/".data) :=
    List.take_of_length_le (by simpa using hm)
  rw [h1]
  decide

theorem refPat_take_not_suffix (f g : List Char) (hgood : goodImageName g) :
    ∀ m, 1 ≤ m → m < (refPat f).length → '/' ∉ (refPat f).take m →
      ¬ ((refPat f).take m <:+ g) := by
  intro m h1 _ hns
  have hm7 : m ≤ 6 := by
    by_contra h
    exact hns (refPat_take_slash_ge f m (by omega))
  rw [refPat_take_eq f m (by omega)]
  interval_cases m <;> intro hs <;>
    exact goodImageName.suffix_discrim g hgood _ hs (by decide)

theorem imgPat_take_slash (ym f : List Char) (m : Nat) (hm : 1 ≤ m) :
    '/' ∈ (imgPat ym f).take m := by
  have h0 : imgPat ym f = '/' :: (("img/".data) ++ (ym ++ '/' :: f)) := rfl
  rw [h0]
  cases m with
  | zero => omega
  | succ k =>
    rw [List.take_succ_cons]
    exact List.mem_cons_self _ _

theorem imgPat_take_not_suffix (ym f g : List Char) (_hg : '/' ∉ g) :
    ∀ m, 1 ≤ m → m < (imgPat ym f).length → '/' ∉ (imgPat ym f).take m →
      ¬ ((imgPat ym f).take m <:+ g) := by
  intro m h1 _ hns
  exact absurd (imgPat_take_slash ym f m h1) hns

theorem slash_mem_refPat (f : List Char) : '/' ∈ refPat f := by
  unfold refPat
  apply List.mem_append_left
  decide

theorem slash_mem_imgPat (ym f : List Char) : '/' ∈ imgPat ym f := by
  have h0 : imgPat ym f = '/' :: (("img/".data) ++ (ym ++ '/' :: f)) := rfl
  rw [h0]
  exact List.mem_cons_self _ _

theorem prefix_of_append_of_length_le (x a b : List Char) (h : x <+: a ++ b)
    (hl : x.length ≤ a.length) : x <+: a := by
  have hpt := List.prefix_iff_eq_take.mp h
  rw [List.take_append_of_le_length hl] at hpt
  exact List.prefix_iff_eq_take.mpr hpt

theorem prefix_append_mutual (f g rest : List Char) (h : f <+: g ++ rest) :
    f <+: g ∨ g <+: f := by
  rcases le_or_lt f.length g.length with hle | hlt
  · exact Or.inl (prefix_of_append_of_length_le f g rest h hle)
  · right
    have hpt := List.prefix_iff_eq_take.mp h
    have h1 : f.take g.length = g := by
      conv_lhs => rw [hpt]
      rw [List.take_take, min_eq_left (le_of_lt hlt)]
      exact List.take_left ..
    rw [List.prefix_iff_eq_take]
    exact h1.symm

/-- Free-text chunks of the structured body carry no stray occurrence of
either reference pattern head. -/
def chunkSafe (c : List Char) : Prop :=
  occCount (("images/".data)) c = 0 ∧ occCount (("/img/".data)) c = 0

instance chunkSafeDec (c : List Char) : Decidable (chunkSafe c) := by
  unfold chunkSafe
  infer_instance

theorem chunkSafe_no_images (c : List Char) (hc : chunkSafe c) (i : Nat) :
    occursAt ("images/".data) c i = false :=
  ((occCount_eq_zero _ c (by decide)).mp hc.1) i

theorem chunkSafe_no_img (c : List Char) (hc : chunkSafe c) (i : Nat) :
    occursAt ("/img/".data) c i = false :=
  ((occCount_eq_zero _ c (by decide)).mp hc.2) i

/-- Shapes the tail of a structured body can take: empty, or starting with a
raw `images/` reference, or starting with a rewritten `/img/` reference. -/
def TailShape (y : List Char) : Prop :=
  y = [] ∨ (∃ g t, y = refPat g ++ t) ∨ (∃ t, y = ("/img/".data) ++ t)

theorem refPat_assoc (g rest : List Char) :
    refPat g ++ rest = ("images/".data) ++ (g ++ rest) := by
  simp [refPat]

theorem imgPat_assoc (ym g rest : List Char) :
    imgPat ym g ++ rest = ("/img/".data) ++ (ym ++ '/' :: (g ++ rest)) := by
  simp [imgPat]


theorem prefix_take_congr (x y : List Char) (h : x <+: y) (k : Nat) (hk : k ≤ x.length) :
    x.take k = y.take k := by
  have hpt := List.prefix_iff_eq_take.mp h
  conv_lhs => rw [hpt]
  rw [List.take_take, min_eq_left hk]

theorem imgPat_take_eq (ym f : List Char) (m : Nat) (hm : m ≤ 5) :
    (imgPat ym f).take m = ("/img/".data).take m := by
  unfold imgPat
  rw [List.take_append_of_le_length (by simpa using hm)]

theorem refPat_length (f : List Char) : (refPat f).length = 7 + f.length := by
  simp [refPat]
  omega

theorem imgPat_length (ym f : List Char) :
    (imgPat ym f).length = 5 + (ym.length + (1 + f.length)) := by
  simp [imgPat]
  omega

/-- No occurrence of `refPat f` starts inside the `refPat g` piece of
`refPat g ++ rest` when `f` and `g` are mutually non-prefix good names. -/
theorem cleanSplit_ref_ref (f g rest : List Char)
    (hgg : goodImageName g)
    (hnp1 : ¬ f <+: g) (hnp2 : ¬ g <+: f) :
    CleanSplit (refPat f) (refPat g) rest := by
  intro i hi
  rw [refPat_assoc g rest]
  have hig : i < 7 + g.length := by
    rw [refPat_length] at hi
    omega
  rcases Nat.lt_or_ge i 7 with h7 | h7
  · rcases Nat.eq_zero_or_pos i with rfl | hpos
    · rw [occursAt_zero, Bool.eq_false_iff]
      intro hb
      have hpre := List.isPrefixOf_iff_prefix.mp hb
      have h2 : f <+: g ++ rest := by
        have h3 : ("images/".data) ++ f <+: ("images/".data) ++ (g ++ rest) := by
          simpa [refPat] using hpre
        exact (List.prefix_append_right_inj _).mp h3
      rcases prefix_append_mutual f g rest h2 with h3 | h3
      · exact hnp1 h3
      · exact hnp2 h3
    · rw [Bool.eq_false_iff]
      intro hp
      rw [occursAt_true_iff] at hp
      rw [List.drop_append_of_le_length (by simp; omega)] at hp
      have htake := prefix_take_congr _ _ hp 1 (by rw [refPat_length]; omega)
      rw [refPat_take_eq f 1 (by omega)] at htake
      rw [List.take_append_of_le_length (by simp; omega)] at htake
      interval_cases i <;> exact absurd htake (by decide)
  · have hik : i = 7 + (i - 7) := by omega
    rw [hik, show (7 : Nat) = (("images/".data)).length from rfl, occursAt_append_add]
    exact occursAt_inside_noSlash (refPat f) g rest (i - 7) (by omega)
      (slash_mem_refPat f) hgg.2.1 (refPat_take_not_suffix f g hgg)

theorem take_one_mem (l : List Char) (k : Nat) (hk : k < l.length) :
    ∃ c ∈ l, (l.drop k).take 1 = [c] := by
  cases hd : l.drop k with
  | nil =>
    have : (l.drop k).length = 0 := by rw [hd]; rfl
    rw [List.length_drop] at this
    omega
  | cons c t =>
    refine ⟨c, ?_, rfl⟩
    have hc : c ∈ l.drop k := by
      rw [hd]
      exact List.mem_cons_self _ _
    exact List.drop_subset k l hc

theorem take_two_shape (ym w : List Char) (k : Nat) (hk : k < ym.length) :
    ∃ c d, ((ym ++ '/' :: w).drop k).take 2 = [c, d] ∧ (d ∈ ym ∨ d = '/') := by
  have hdrop : (ym ++ '/' :: w).drop k = ym.drop k ++ '/' :: w :=
    List.drop_append_of_le_length (le_of_lt hk)
  rw [hdrop]
  cases hd : ym.drop k with
  | nil =>
    have : (ym.drop k).length = 0 := by rw [hd]; rfl
    rw [List.length_drop] at this
    omega
  | cons c t =>
    cases t with
    | nil => exact ⟨c, '/', rfl, Or.inr rfl⟩
    | cons d t2 =>
      refine ⟨c, d, rfl, Or.inl ?_⟩
      have hc : d ∈ ym.drop k := by
        rw [hd]
        exact List.mem_cons_of_mem _ (List.mem_cons_self _ _)
      exact List.drop_subset k ym hc

/-- No occurrence of `refPat f` starts strictly inside its own rendered
copy. -/
theorem refPat_no_interior (f rest : List Char) (hgf : goodImageName f) :
    ∀ i, 0 < i → i < (refPat f).length →
      occursAt (refPat f) (refPat f ++ rest) i = false := by
  intro i hpos hi
  rw [refPat_assoc f rest]
  have hig : i < 7 + f.length := by
    rw [refPat_length] at hi
    omega
  rcases Nat.lt_or_ge i 7 with h7 | h7
  · rw [Bool.eq_false_iff]
    intro hp
    rw [occursAt_true_iff] at hp
    rw [List.drop_append_of_le_length (by simp; omega)] at hp
    have htake := prefix_take_congr _ _ hp 1 (by rw [refPat_length]; omega)
    rw [refPat_take_eq f 1 (by omega)] at htake
    rw [List.take_append_of_le_length (by simp; omega)] at htake
    interval_cases i <;> exact absurd htake (by decide)
  · have hik : i = 7 + (i - 7) := by omega
    rw [hik, show (7 : Nat) = (("images/".data)).length from rfl, occursAt_append_add]
    exact occursAt_inside_noSlash (refPat f) f rest (i - 7) (by omega)
      (slash_mem_refPat f) hgf.2.1 (refPat_take_not_suffix f f hgf)

/-- No occurrence of `imgPat ym f` starts inside the `refPat g` piece of
`refPat g ++ rest`. -/
theorem cleanSplit_img_ref (ym f g rest : List Char) (hgg : goodImageName g) :
    CleanSplit (imgPat ym f) (refPat g) rest := by
  intro i hi
  rw [refPat_assoc g rest]
  have hig : i < 7 + g.length := by
    rw [refPat_length] at hi
    omega
  rcases Nat.lt_or_ge i 7 with h7 | h7
  · by_cases h6 : i = 6
    · subst h6
      rw [Bool.eq_false_iff]
      intro hp
      rw [occursAt_true_iff] at hp
      rw [List.drop_append_of_le_length (by simp)] at hp
      have hp2 : '/' :: (("img/".data) ++ (ym ++ '/' :: f)) <+: '/' :: (g ++ rest) := hp
      have h3 := (List.cons_prefix_cons.mp hp2).2
      have h4 : ("img/".data) <+: g ++ rest := (List.prefix_append _ _).trans h3
      exact (imgslash_conflict g rest (goodImageName.four_le_length g hgg) hgg.2.1).2 h4
    · rw [Bool.eq_false_iff]
      intro hp
      rw [occursAt_true_iff] at hp
      rw [List.drop_append_of_le_length (by simp; omega)] at hp
      have htake := prefix_take_congr _ _ hp 1 (by rw [imgPat_length]; omega)
      rw [imgPat_take_eq ym f 1 (by omega)] at htake
      rw [List.take_append_of_le_length (by simp; omega)] at htake
      interval_cases i <;> first
        | exact absurd htake (by decide)
        | exact absurd rfl h6
  · have hik : i = 7 + (i - 7) := by omega
    rw [hik, show (7 : Nat) = (("images/".data)).length from rfl, occursAt_append_add]
    exact occursAt_inside_noSlash (imgPat ym f) g rest (i - 7) (by omega)
      (slash_mem_imgPat ym f) hgg.2.1 (imgPat_take_not_suffix ym f g hgg.2.1)

theorem assoc_img2 (ym g rest : List Char) :
    ("/img/".data) ++ (ym ++ '/' :: (g ++ rest)) =
      (("/img/".data) ++ (ym ++ ['/'])) ++ (g ++ rest) := by
  simp

theorem take_one_head_append (ym : List Char) (x : List Char) (hym : ym ≠ []) :
    ∃ c ∈ ym, (ym ++ x).take 1 = [c] := by
  obtain ⟨c, hc, h1⟩ := take_one_mem ym 0 (by cases ym; exact absurd rfl hym; simp)
  rw [List.drop_zero] at h1
  refine ⟨c, hc, ?_⟩
  rw [List.take_append_of_le_length, h1]
  cases ym
  · exact absurd rfl hym
  · simp

/-- No occurrence of `refPat f` starts inside the `imgPat ym g` piece of
`imgPat ym g ++ rest`. -/
theorem cleanSplit_ref_img (ym f g rest : List Char) (hym : ymGood ym)
    (hgg : goodImageName g) :
    CleanSplit (refPat f) (imgPat ym g) rest := by
  intro i hi
  have hil : i < 5 + (ym.length + (1 + g.length)) := by
    rw [imgPat_length] at hi
    omega
  rw [imgPat_assoc ym g rest]
  rcases Nat.lt_or_ge i 5 with h5 | h5
  · by_cases h1 : i = 1
    · subst h1
      rw [Bool.eq_false_iff]
      intro hp
      rw [occursAt_true_iff] at hp
      rw [List.drop_append_of_le_length (by simp)] at hp
      have htake := prefix_take_congr _ _ hp 3 (by rw [refPat_length]; omega)
      rw [refPat_take_eq f 3 (by omega)] at htake
      rw [List.take_append_of_le_length (by simp)] at htake
      exact absurd htake (by decide)
    · rw [Bool.eq_false_iff]
      intro hp
      rw [occursAt_true_iff] at hp
      rw [List.drop_append_of_le_length (by simp; omega)] at hp
      have htake := prefix_take_congr _ _ hp 1 (by rw [refPat_length]; omega)
      rw [refPat_take_eq f 1 (by omega)] at htake
      rw [List.take_append_of_le_length (by simp; omega)] at htake
      interval_cases i <;> first
        | exact absurd htake (by decide)
        | exact absurd rfl h1
  · rcases Nat.lt_or_ge i (5 + ym.length) with hym5 | hym5
    · obtain ⟨k, hk⟩ : ∃ k, i = 5 + k := ⟨i - 5, by omega⟩
      subst hk
      have hkym : k < ym.length := by omega
      rw [show (5 : Nat) + k = (("/img/".data)).length + k from rfl, occursAt_append_add]
      rw [Bool.eq_false_iff]
      intro hp
      rw [occursAt_true_iff] at hp
      obtain ⟨c, hcym, hc1⟩ := take_one_mem ym k hkym
      have hdropW : (ym ++ '/' :: (g ++ rest)).drop k = ym.drop k ++ '/' :: (g ++ rest) :=
        List.drop_append_of_le_length (le_of_lt hkym)
      rw [hdropW] at hp
      have htake := prefix_take_congr _ _ hp 1 (by rw [refPat_length]; omega)
      rw [refPat_take_eq f 1 (by omega)] at htake
      rw [List.take_append_of_le_length (by rw [List.length_drop]; omega), hc1] at htake
      have hci : c = 'i' := by
        have h2 : ((("images/".data))).take 1 = ['i'] := by decide
        rw [h2] at htake
        injection htake with h3 _
        exact h3.symm
      exact (ymGood_char_ne ym hym c hcym).1 hci
    · by_cases hsep : i = 5 + ym.length
      · subst hsep
        rw [show (5 + ym.length) = (("/img/".data)).length + ym.length from rfl,
          occursAt_append_add]
        rw [Bool.eq_false_iff]
        intro hp
        rw [occursAt_true_iff] at hp
        rw [List.drop_left] at hp
        have htake := prefix_take_congr _ _ hp 1 (by rw [refPat_length]; omega)
        rw [refPat_take_eq f 1 (by omega),
          show (('/' :: (g ++ rest)).take 1) = ['/'] from rfl] at htake
        exact absurd htake (by decide)
      · obtain ⟨k, hk⟩ : ∃ k, i = 6 + ym.length + k := ⟨i - (6 + ym.length), by omega⟩
        subst hk
        rw [assoc_img2 ym g rest]
        rw [show 6 + ym.length + k = (("/img/".data) ++ (ym ++ ['/'])).length + k from by
          simp; omega]
        rw [occursAt_append_add]
        exact occursAt_inside_noSlash (refPat f) g rest k (by omega)
          (slash_mem_refPat f) hgg.2.1 (refPat_take_not_suffix f g hgg)

/-- No occurrence of `imgPat ym f` starts strictly inside the `imgPat ym g`
piece of `imgPat ym g ++ rest`. -/
theorem imgPat_no_interior_gen (ym f g rest : List Char) (hym : ymGood ym)
    (hgg : goodImageName g) :
    ∀ i, 0 < i → i < (imgPat ym g).length →
      occursAt (imgPat ym f) (imgPat ym g ++ rest) i = false := by
  intro i hpos hi
  have hil : i < 5 + (ym.length + (1 + g.length)) := by
    rw [imgPat_length] at hi
    omega
  rw [imgPat_assoc ym g rest]
  rcases Nat.lt_or_ge i 5 with h5 | h5
  · by_cases h4 : i = 4
    · subst h4
      rw [Bool.eq_false_iff]
      intro hp
      rw [occursAt_true_iff] at hp
      rw [List.drop_append_of_le_length (by simp)] at hp
      have hp2 : '/' :: (("img/".data) ++ (ym ++ '/' :: f)) <+:
          '/' :: (ym ++ '/' :: (g ++ rest)) := hp
      have h3 := (List.cons_prefix_cons.mp hp2).2
      obtain ⟨c, hcym, hc1⟩ := take_one_head_append ym ('/' :: (g ++ rest)) hym.1
      have htake := prefix_take_congr _ _ h3 1 (by simp)
      rw [List.take_append_of_le_length (by simp), hc1] at htake
      have hci : c = 'i' := by
        rw [show ((("img/".data))).take 1 = ['i'] from by decide] at htake
        injection htake with h6 _
        exact h6.symm
      exact (ymGood_char_ne ym hym c hcym).1 hci
    · rw [Bool.eq_false_iff]
      intro hp
      rw [occursAt_true_iff] at hp
      rw [List.drop_append_of_le_length (by simp; omega)] at hp
      have htake := prefix_take_congr _ _ hp 1 (by rw [imgPat_length]; omega)
      rw [imgPat_take_eq ym f 1 (by omega)] at htake
      rw [List.take_append_of_le_length (by simp; omega)] at htake
      interval_cases i <;> first
        | exact absurd htake (by decide)
        | exact absurd rfl h4
  · rcases Nat.lt_or_ge i (5 + ym.length) with hym5 | hym5
    · obtain ⟨k, hk⟩ : ∃ k, i = 5 + k := ⟨i - 5, by omega⟩
      subst hk
      have hkym : k < ym.length := by omega
      rw [show (5 : Nat) + k = (("/img/".data)).length + k from rfl, occursAt_append_add]
      rw [Bool.eq_false_iff]
      intro hp
      rw [occursAt_true_iff] at hp
      obtain ⟨c, d, hcd, hd⟩ := take_two_shape ym (g ++ rest) k hkym
      have htake := prefix_take_congr _ _ hp 2 (by rw [imgPat_length]; omega)
      rw [imgPat_take_eq ym f 2 (by omega), hcd] at htake
      have hdi : d = 'i' := by
        rw [show ((("/img/".data))).take 2 = ['/', 'i'] from by decide] at htake
        injection htake with h6 h7
        injection h7 with h8 _
        exact h8.symm
      rcases hd with hd | hd
      · exact (ymGood_char_ne ym hym d hd).1 hdi
      · rw [hd] at hdi
        exact absurd hdi (by decide)
    · by_cases hsep : i = 5 + ym.length
      · subst hsep
        rw [show (5 + ym.length) = (("/img/".data)).length + ym.length from rfl,
          occursAt_append_add]
        rw [Bool.eq_false_iff]
        intro hp
        rw [occursAt_true_iff] at hp
        rw [List.drop_left] at hp
        have hp2 : '/' :: (("img/".data) ++ (ym ++ '/' :: f)) <+: '/' :: (g ++ rest) := hp
        have h3 := (List.cons_prefix_cons.mp hp2).2
        have h4 : ("img/".data) <+: g ++ rest := (List.prefix_append _ _).trans h3
        exact (imgslash_conflict g rest (goodImageName.four_le_length g hgg) hgg.2.1).2 h4
      · obtain ⟨k, hk⟩ : ∃ k, i = 6 + ym.length + k := ⟨i - (6 + ym.length), by omega⟩
        subst hk
        rw [assoc_img2 ym g rest]
        rw [show 6 + ym.length + k = (("/img/".data) ++ (ym ++ ['/'])).length + k from by
          simp; omega]
        rw [occursAt_append_add]
        exact occursAt_inside_noSlash (imgPat ym f) g rest k (by omega)
          (slash_mem_imgPat ym f) hgg.2.1 (imgPat_take_not_suffix ym f g hgg.2.1)

/-- No occurrence of `imgPat ym f` starts inside the `imgPat ym g` piece of
`imgPat ym g ++ rest`, for mutually non-prefix `f`, `g`. -/
theorem cleanSplit_img_img (ym f g rest : List Char) (hym : ymGood ym)
    (hgg : goodImageName g) (hnp1 : ¬ f <+: g) (hnp2 : ¬ g <+: f) :
    CleanSplit (imgPat ym f) (imgPat ym g) rest := by
  intro i hi
  rcases Nat.eq_zero_or_pos i with rfl | hpos
  · rw [occursAt_zero, Bool.eq_false_iff]
    intro hb
    have hpre := List.isPrefixOf_iff_prefix.mp hb
    rw [imgPat_assoc ym g rest] at hpre
    have h1 : ym ++ '/' :: f <+: ym ++ '/' :: (g ++ rest) :=
      (List.prefix_append_right_inj _).mp hpre
    have h2 : '/' :: f <+: '/' :: (g ++ rest) := (List.prefix_append_right_inj ym).mp h1
    have h3 := (List.cons_prefix_cons.mp h2).2
    rcases prefix_append_mutual f g rest h3 with h4 | h4
    · exact hnp1 h4
    · exact hnp2 h4
  · exact imgPat_no_interior_gen ym f g rest hym hgg i hpos hi

/-- No occurrence of `refPat f` starts inside a safe chunk followed by a
well-shaped tail. -/
theorem cleanSplit_chunk_ref (f c y : List Char) (hgf : goodImageName f)
    (hc : chunkSafe c) (hy : TailShape y) :
    CleanSplit (refPat f) c y := by
  intro i hi
  rw [Bool.eq_false_iff]
  intro hp
  rw [occursAt_true_iff] at hp
  rw [List.drop_append_of_le_length (le_of_lt hi)] at hp
  have hdlen : (c.drop i).length = c.length - i := List.length_drop ..
  have hm1 : 1 ≤ (c.drop i).length := by
    rw [List.length_drop]
    omega
  by_cases hlen : (refPat f).length ≤ (c.drop i).length
  · have h7 : ("images/".data) <+: c.drop i := by
      have h1 : ("images/".data) <+: refPat f := List.prefix_append _ _
      exact prefix_of_append_of_length_le _ _ _ (h1.trans hp)
        (by rw [refPat_length] at hlen; simp; omega)
    have hfalse := chunkSafe_no_images c hc i
    rw [Bool.eq_false_iff] at hfalse
    exact hfalse ((occursAt_true_iff _ _ _).mpr h7)
  · have h1 : (refPat f).take (c.drop i).length = c.drop i := by
      conv_lhs => rw [List.prefix_iff_eq_take.mp hp]
      rw [List.take_take, min_eq_left (by omega)]
      exact List.take_left ..
    have hr : (refPat f).drop (c.drop i).length <+: y := by
      have h2 : (refPat f).take (c.drop i).length ++ (refPat f).drop (c.drop i).length <+:
          (c.drop i) ++ y := by
        rw [List.take_append_drop]
        exact hp
      rw [h1] at h2
      exact (List.prefix_append_right_inj _).mp h2
    by_cases hm7 : 7 ≤ (c.drop i).length
    · have h7 : ("images/".data) <+: c.drop i := by
        rw [← h1]
        have h3 : ((refPat f).take (c.drop i).length).take 7 = ("images/".data) := by
          rw [List.take_take, min_eq_left hm7, refPat_take_eq f 7 (le_refl 7)]
          decide
        exact List.prefix_iff_eq_take.mpr h3.symm
      have hfalse := chunkSafe_no_images c hc i
      rw [Bool.eq_false_iff] at hfalse
      exact hfalse ((occursAt_true_iff _ _ _).mpr h7)
    · have hrm : (refPat f).drop (c.drop i).length =
          ("images/".data).drop (c.drop i).length ++ f := by
        unfold refPat
        rw [List.drop_append_of_le_length (by simp; omega)]
      rw [hrm] at hr
      have hmle : (c.drop i).length ≤ 6 := by omega
      clear hp h1 hrm hlen hm7 hi
      generalize hgen : (c.drop i).length = m at hr hm1 hmle
      rcases hy with rfl | ⟨g', t, rfl⟩ | ⟨t, rfl⟩
      · have h0 := List.prefix_nil.mp hr
        have hlen0 : ((("images/".data)).drop m ++ f).length = 0 := by
          rw [h0]
          rfl
        simp [List.length_drop] at hlen0
        omega
      · rw [refPat_assoc] at hr
        have htake := prefix_take_congr _ _ hr 1 (by simp [List.length_drop]; omega)
        rw [List.take_append_of_le_length (by simp [List.length_drop]; omega),
          List.take_append_of_le_length (by simp)] at htake
        interval_cases m <;> exact absurd htake (by decide)
      · by_cases hm6 : m = 6
        · subst hm6
          have hr2 : '/' :: f <+: '/' :: (("img/".data) ++ t) := hr
          have h3 := (List.cons_prefix_cons.mp hr2).2
          exact (imgslash_conflict f t (goodImageName.four_le_length f hgf) hgf.2.1).1 h3
        · have htake := prefix_take_congr _ _ hr 1 (by simp [List.length_drop]; omega)
          rw [List.take_append_of_le_length (by simp [List.length_drop]; omega),
            List.take_append_of_le_length (by simp)] at htake
          interval_cases m <;> first
            | exact absurd htake (by decide)
            | exact absurd rfl hm6

/-- No occurrence of `imgPat ym f` starts inside a safe chunk followed by a
well-shaped tail. -/
theorem cleanSplit_chunk_img (ym f c y : List Char) (hym : ymGood ym)
    (hc : chunkSafe c) (hy : TailShape y) :
    CleanSplit (imgPat ym f) c y := by
  intro i hi
  rw [Bool.eq_false_iff]
  intro hp
  rw [occursAt_true_iff] at hp
  rw [List.drop_append_of_le_length (le_of_lt hi)] at hp
  have hdlen : (c.drop i).length = c.length - i := List.length_drop ..
  have hm1 : 1 ≤ (c.drop i).length := by
    rw [List.length_drop]
    omega
  by_cases hlen : (imgPat ym f).length ≤ (c.drop i).length
  · have h7 : ("/img/".data) <+: c.drop i := by
      have h1 : ("/img/".data) <+: imgPat ym f := List.prefix_append _ _
      exact prefix_of_append_of_length_le _ _ _ (h1.trans hp)
        (by rw [imgPat_length] at hlen; simp; omega)
    have hfalse := chunkSafe_no_img c hc i
    rw [Bool.eq_false_iff] at hfalse
    exact hfalse ((occursAt_true_iff _ _ _).mpr h7)
  · have h1 : (imgPat ym f).take (c.drop i).length = c.drop i := by
      conv_lhs => rw [List.prefix_iff_eq_take.mp hp]
      rw [List.take_take, min_eq_left (by omega)]
      exact List.take_left ..
    have hr : (imgPat ym f).drop (c.drop i).length <+: y := by
      have h2 : (imgPat ym f).take (c.drop i).length ++
          (imgPat ym f).drop (c.drop i).length <+: (c.drop i) ++ y := by
        rw [List.take_append_drop]
        exact hp
      rw [h1] at h2
      exact (List.prefix_append_right_inj _).mp h2
    by_cases hm5 : 5 ≤ (c.drop i).length
    · have h7 : ("/img/".data) <+: c.drop i := by
        rw [← h1]
        have h3 : ((imgPat ym f).take (c.drop i).length).take 5 = ("/img/".data) := by
          rw [List.take_take, min_eq_left hm5, imgPat_take_eq ym f 5 (le_refl 5)]
          decide
        exact List.prefix_iff_eq_take.mpr h3.symm
      have hfalse := chunkSafe_no_img c hc i
      rw [Bool.eq_false_iff] at hfalse
      exact hfalse ((occursAt_true_iff _ _ _).mpr h7)
    · have hrm : (imgPat ym f).drop (c.drop i).length =
          ("/img/".data).drop (c.drop i).length ++ (ym ++ '/' :: f) := by
        unfold imgPat
        rw [List.drop_append_of_le_length (by simp; omega)]
      rw [hrm] at hr
      have hmle : (c.drop i).length ≤ 4 := by omega
      clear hp h1 hrm hlen hm5 hi
      generalize hgen : (c.drop i).length = m at hr hm1 hmle
      rcases hy with rfl | ⟨g', t, rfl⟩ | ⟨t, rfl⟩
      · have h0 := List.prefix_nil.mp hr
        have hlen0 : ((("/img/".data)).drop m ++ (ym ++ '/' :: f)).length = 0 := by
          rw [h0]
          rfl
        simp [List.length_drop] at hlen0
      · rw [refPat_assoc] at hr
        by_cases hm' : m = 1
        · subst hm'
          have htake := prefix_take_congr _ _ hr 3 (by simp [List.length_drop])
          rw [List.take_append_of_le_length (by simp [List.length_drop]),
            List.take_append_of_le_length (by simp)] at htake
          exact absurd htake (by decide)
        · have htake := prefix_take_congr _ _ hr 1 (by simp [List.length_drop]; omega)
          rw [List.take_append_of_le_length (by simp [List.length_drop]; omega),
            List.take_append_of_le_length (by simp)] at htake
          interval_cases m <;> first
            | exact absurd htake (by decide)
            | exact absurd rfl hm'
      · by_cases hm4 : m = 4
        · subst hm4
          have hr2 : '/' :: (ym ++ '/' :: f) <+: '/' :: (("img/".data) ++ t) := hr
          have h3 := (List.cons_prefix_cons.mp hr2).2
          obtain ⟨ch, hchym, hch1⟩ := take_one_head_append ym ('/' :: f) hym.1
          have htake := prefix_take_congr _ _ h3 1 (by simp; omega)
          rw [hch1, List.take_append_of_le_length (by simp)] at htake
          have hci : ch = 'i' := by
            rw [show ((("img/".data))).take 1 = ['i'] from by decide] at htake
            simpa using htake
          exact (ymGood_char_ne ym hym ch hchym).1 hci
        · have htake := prefix_take_congr _ _ hr 1 (by simp [List.length_drop]; omega)
          rw [List.take_append_of_le_length (by simp [List.length_drop]; omega),
            List.take_append_of_le_length (by simp)] at htake
          interval_cases m <;> first
            | exact absurd htake (by decide)
            | exact absurd rfl hm4

/-- Whether an image reference in the draft has been rewritten yet. -/
inductive RefMark where
  | raw
  | done
deriving DecidableEq

/-- One image reference of the draft body together with the free text that
follows it, up to the next reference. -/
structure RefSeg where
  mark : RefMark
  file : List Char
  after : List Char
deriving DecidableEq

/-- Render one segment: the (raw or rewritten) reference, then its text. -/
def RefSeg.render (ym : List Char) (s : RefSeg) : List Char :=
  (match s.mark with
   | .raw => refPat s.file
   | .done => imgPat ym s.file) ++ s.after

/-- Render a segment list. -/
def renderSegs (ym : List Char) (segs : List RefSeg) : List Char :=
  (segs.map (RefSeg.render ym)).flatten

/-- Render a whole draft body: leading text, then the reference segments. -/
def renderBody (ym pre : List Char) (segs : List RefSeg) : List Char :=
  pre ++ renderSegs ym segs

theorem renderSegs_nil (ym : List Char) : renderSegs ym [] = [] := rfl

theorem renderSegs_cons (ym : List Char) (s : RefSeg) (segs : List RefSeg) :
    renderSegs ym (s :: segs) = RefSeg.render ym s ++ renderSegs ym segs := by
  simp [renderSegs]

theorem renderSegs_cons_raw (ym : List Char) (s : RefSeg) (segs : List RefSeg)
    (h : s.mark = RefMark.raw) :
    renderSegs ym (s :: segs) = refPat s.file ++ (s.after ++ renderSegs ym segs) := by
  rw [renderSegs_cons]
  unfold RefSeg.render
  rw [h]
  simp

theorem renderSegs_cons_done (ym : List Char) (s : RefSeg) (segs : List RefSeg)
    (h : s.mark = RefMark.done) :
    renderSegs ym (s :: segs) = imgPat ym s.file ++ (s.after ++ renderSegs ym segs) := by
  rw [renderSegs_cons]
  unfold RefSeg.render
  rw [h]
  simp

theorem tailShape_renderSegs (ym : List Char) (segs : List RefSeg) :
    TailShape (renderSegs ym segs) := by
  cases segs with
  | nil => exact Or.inl rfl
  | cons s rest =>
    cases hm : s.mark with
    | raw =>
      exact Or.inr (Or.inl ⟨s.file, s.after ++ renderSegs ym rest,
        renderSegs_cons_raw ym s rest hm⟩)
    | done =>
      refine Or.inr (Or.inr ⟨(ym ++ '/' :: s.file) ++ (s.after ++ renderSegs ym rest), ?_⟩)
      rw [renderSegs_cons_done ym s rest hm]
      simp [imgPat]

/-- All segments reference catalogued files and carry safe chunks. -/
def SegsOK (files : List (List Char)) (segs : List RefSeg) : Prop :=
  ∀ s ∈ segs, s.file ∈ files ∧ chunkSafe s.after

/-- Number of still-raw segments referencing `f`. -/
def rawCount (f : List Char) (segs : List RefSeg) : Nat :=
  (segs.filter (fun s => s.mark == RefMark.raw && s.file == f)).length

/-- Number of rewritten segments referencing `f`. -/
def doneCount (f : List Char) (segs : List RefSeg) : Nat :=
  (segs.filter (fun s => s.mark == RefMark.done && s.file == f)).length

theorem refPat_ne_nil (f : List Char) : refPat f ≠ [] := by
  unfold refPat
  simp

theorem occCount_renderSegs_ref (ym : List Char) (files : List (List Char))
    (f : List Char) (segs : List RefSeg) (hym : ymGood ym)
    (hgf : ∀ g ∈ files, goodImageName g)
    (hpair : ∀ a ∈ files, ∀ b ∈ files, a ≠ b → ¬ a <+: b)
    (hf : f ∈ files) (hsegs : SegsOK files segs) :
    occCount (refPat f) (renderSegs ym segs) = rawCount f segs := by
  induction segs with
  | nil => rfl
  | cons s rest ih =>
    obtain ⟨hsf, hsafe⟩ := hsegs s (List.mem_cons_self _ _)
    have hrest : SegsOK files rest := fun t ht => hsegs t (List.mem_cons_of_mem _ ht)
    have hchunk : occCount (refPat f) (s.after ++ renderSegs ym rest) =
        occCount (refPat f) (renderSegs ym rest) :=
      occCount_append_clean _ _ _
        (cleanSplit_chunk_ref f s.after (renderSegs ym rest) (hgf f hf) hsafe
          (tailShape_renderSegs ym rest))
    cases hm : s.mark with
    | raw =>
      rw [renderSegs_cons_raw ym s rest hm]
      by_cases hfe : s.file = f
      · subst hfe
        rw [occCount_self_append _ _ (refPat_ne_nil s.file)
          (refPat_no_interior s.file _ (hgf s.file hsf))]
        rw [hchunk, ih hrest]
        unfold rawCount
        rw [List.filter_cons]
        simp [hm]
        omega
      · rw [occCount_append_clean _ _ _
          (cleanSplit_ref_ref f s.file (s.after ++ renderSegs ym rest) (hgf s.file hsf)
            (hpair f hf s.file hsf (fun h => hfe h.symm)) (hpair s.file hsf f hf hfe))]
        rw [hchunk, ih hrest]
        unfold rawCount
        rw [List.filter_cons]
        simp [hm, hfe]
    | done =>
      rw [renderSegs_cons_done ym s rest hm]
      rw [occCount_append_clean _ _ _
        (cleanSplit_ref_img ym f s.file (s.after ++ renderSegs ym rest) hym (hgf s.file hsf))]
      rw [hchunk, ih hrest]
      unfold rawCount
      rw [List.filter_cons]
      simp [hm]

theorem imgPat_ne_nil (ym f : List Char) : imgPat ym f ≠ [] := by
  unfold imgPat
  simp

theorem occCount_renderSegs_img (ym : List Char) (files : List (List Char))
    (f : List Char) (segs : List RefSeg) (hym : ymGood ym)
    (hgf : ∀ g ∈ files, goodImageName g)
    (hpair : ∀ a ∈ files, ∀ b ∈ files, a ≠ b → ¬ a <+: b)
    (hf : f ∈ files) (hsegs : SegsOK files segs) :
    occCount (imgPat ym f) (renderSegs ym segs) = doneCount f segs := by
  induction segs with
  | nil => rfl
  | cons s rest ih =>
    obtain ⟨hsf, hsafe⟩ := hsegs s (List.mem_cons_self _ _)
    have hrest : SegsOK files rest := fun t ht => hsegs t (List.mem_cons_of_mem _ ht)
    have hchunk : occCount (imgPat ym f) (s.after ++ renderSegs ym rest) =
        occCount (imgPat ym f) (renderSegs ym rest) :=
      occCount_append_clean _ _ _
        (cleanSplit_chunk_img ym f s.after (renderSegs ym rest) hym hsafe
          (tailShape_renderSegs ym rest))
    cases hm : s.mark with
    | raw =>
      rw [renderSegs_cons_raw ym s rest hm]
      rw [occCount_append_clean _ _ _
        (cleanSplit_img_ref ym f s.file (s.after ++ renderSegs ym rest) (hgf s.file hsf))]
      rw [hchunk, ih hrest]
      unfold doneCount
      rw [List.filter_cons]
      simp [hm]
    | done =>
      rw [renderSegs_cons_done ym s rest hm]
      by_cases hfe : s.file = f
      · subst hfe
        rw [occCount_self_append _ _ (imgPat_ne_nil ym s.file)
          (imgPat_no_interior_gen ym s.file s.file _ hym (hgf s.file hsf))]
        rw [hchunk, ih hrest]
        unfold doneCount
        rw [List.filter_cons]
        simp [hm]
        omega
      · rw [occCount_append_clean _ _ _
          (cleanSplit_img_img ym f s.file (s.after ++ renderSegs ym rest) hym (hgf s.file hsf)
            (hpair f hf s.file hsf (fun h => hfe h.symm)) (hpair s.file hsf f hf hfe))]
        rw [hchunk, ih hrest]
        unfold doneCount
        rw [List.filter_cons]
        simp [hm, hfe]

/-- Mark a still-raw segment for `f` as rewritten. -/
def markDoneIf (f : List Char) (s : RefSeg) : RefSeg :=
  if s.file == f && s.mark == RefMark.raw then ⟨RefMark.done, s.file, s.after⟩ else s

theorem markDoneIf_file (f : List Char) (s : RefSeg) : (markDoneIf f s).file = s.file := by
  unfold markDoneIf
  split <;> rfl

theorem markDoneIf_after (f : List Char) (s : RefSeg) : (markDoneIf f s).after = s.after := by
  unfold markDoneIf
  split <;> rfl

theorem segsOK_map_markDoneIf (files : List (List Char)) (segs : List RefSeg)
    (f : List Char) (h : SegsOK files segs) : SegsOK files (segs.map (markDoneIf f)) := by
  intro t ht
  obtain ⟨s, hs, rfl⟩ := List.mem_map.mp ht
  obtain ⟨h1, h2⟩ := h s hs
  rw [markDoneIf_file, markDoneIf_after]
  exact ⟨h1, h2⟩

/-- One `String.Replace` pass rewrites exactly the raw segments for `f`. -/
theorem replaceAll_renderSegs (ym : List Char) (files : List (List Char))
    (f : List Char) (segs : List RefSeg) (hym : ymGood ym)
    (hgf : ∀ g ∈ files, goodImageName g)
    (hpair : ∀ a ∈ files, ∀ b ∈ files, a ≠ b → ¬ a <+: b)
    (hf : f ∈ files) (hsegs : SegsOK files segs) :
    replaceAll (refPat f) (imgPat ym f) (renderSegs ym segs) =
      renderSegs ym (segs.map (markDoneIf f)) := by
  induction segs with
  | nil => exact replaceAll_nilstr _ _
  | cons s rest ih =>
    obtain ⟨hsf, hsafe⟩ := hsegs s (List.mem_cons_self _ _)
    have hrest : SegsOK files rest := fun t ht => hsegs t (List.mem_cons_of_mem _ ht)
    have hchunk : replaceAll (refPat f) (imgPat ym f) (s.after ++ renderSegs ym rest) =
        s.after ++ replaceAll (refPat f) (imgPat ym f) (renderSegs ym rest) :=
      replaceAll_append_clean _ _ _ _
        (cleanSplit_chunk_ref f s.after (renderSegs ym rest) (hgf f hf) hsafe
          (tailShape_renderSegs ym rest))
    cases hm : s.mark with
    | raw =>
      by_cases hfe : s.file = f
      · subst hfe
        rw [renderSegs_cons_raw ym s rest hm]
        rw [replaceAll_hit _ _ _ (refPat_ne_nil s.file) (List.prefix_append _ _)]
        rw [List.drop_left]
        rw [hchunk, ih hrest]
        have hms : markDoneIf s.file s = ⟨RefMark.done, s.file, s.after⟩ := by
          unfold markDoneIf
          rw [hm]
          simp
        rw [List.map_cons, hms, renderSegs_cons_done ym _ _ rfl]
      · rw [renderSegs_cons_raw ym s rest hm]
        rw [replaceAll_append_clean _ _ _ _
          (cleanSplit_ref_ref f s.file (s.after ++ renderSegs ym rest) (hgf s.file hsf)
            (hpair f hf s.file hsf (fun h => hfe h.symm)) (hpair s.file hsf f hf hfe))]
        rw [hchunk, ih hrest]
        have hms : markDoneIf f s = s := by
          unfold markDoneIf
          have : (s.file == f) = false := by
            simp [hfe]
          rw [this]
          simp
        rw [List.map_cons, hms, renderSegs_cons_raw ym s _ hm]
    | done =>
      rw [renderSegs_cons_done ym s rest hm]
      rw [replaceAll_append_clean _ _ _ _
        (cleanSplit_ref_img ym f s.file (s.after ++ renderSegs ym rest) hym (hgf s.file hsf))]
      rw [hchunk, ih hrest]
      have hms : markDoneIf f s = s := by
        unfold markDoneIf
        rw [hm]
        simp
      rw [List.map_cons, hms, renderSegs_cons_done ym s _ hm]

/-- The per-file rewriting loop over already-extracted file names. -/
def rewriteFiles (ym : List Char) (fs : List (List Char)) (post : List Char) : List Char :=
  fs.foldl (fun acc f => replaceAll (refPat f) (imgPat ym f) acc) post

theorem rewriteImages_eq_rewriteFiles (ym : List Char) (onDisk : List Char → Bool)
    (paths : List (List Char)) (post : List Char)
    (hdisk : ∀ p ∈ paths, onDisk p = true) :
    rewriteImages ym onDisk post paths = rewriteFiles ym (paths.map fileNameOf) post := by
  induction paths generalizing post with
  | nil => rfl
  | cons p ps ih =>
    unfold rewriteImages rewriteFiles
    rw [List.foldl_cons, List.map_cons, List.foldl_cons]
    rw [hdisk p (List.mem_cons_self _ _)]
    simp only [if_true]
    exact ih _ (fun q hq => hdisk q (List.mem_cons_of_mem _ hq))

theorem rewriteFiles_renderBody (ym pre : List Char) (files : List (List Char))
    (hym : ymGood ym) (hgf : ∀ g ∈ files, goodImageName g)
    (hpair : ∀ a ∈ files, ∀ b ∈ files, a ≠ b → ¬ a <+: b)
    (hpre : chunkSafe pre) :
    ∀ (fs : List (List Char)) (segs : List RefSeg), (∀ f ∈ fs, f ∈ files) →
      SegsOK files segs →
      rewriteFiles ym fs (renderBody ym pre segs) =
        renderBody ym pre (fs.foldl (fun sg f => sg.map (markDoneIf f)) segs) := by
  intro fs
  induction fs with
  | nil => intro segs _ _; rfl
  | cons f fs' ih =>
    intro segs hfs hsegs
    have hffiles : f ∈ files := hfs f (List.mem_cons_self _ _)
    unfold rewriteFiles
    rw [List.foldl_cons]
    have hstep : replaceAll (refPat f) (imgPat ym f) (renderBody ym pre segs) =
        renderBody ym pre (segs.map (markDoneIf f)) := by
      unfold renderBody
      rw [replaceAll_append_clean _ _ _ _
        (cleanSplit_chunk_ref f pre (renderSegs ym segs) (hgf f hffiles) hpre
          (tailShape_renderSegs ym segs))]
      rw [replaceAll_renderSegs ym files f segs hym hgf hpair hffiles hsegs]
    rw [hstep]
    rw [List.foldl_cons]
    exact ih (segs.map (markDoneIf f)) (fun g hg => hfs g (List.mem_cons_of_mem _ hg))
      (segsOK_map_markDoneIf files segs f hsegs)

theorem fold_markDoneIf_done (fs : List (List Char)) (s : RefSeg) :
    (h : s.file ∈ fs ∨ s.mark = RefMark.done) →
      fs.foldl (fun t f => markDoneIf f t) s = ⟨RefMark.done, s.file, s.after⟩ := by
  induction fs generalizing s with
  | nil =>
    intro h
    rcases h with h | h
    · cases h
    · cases s with
      | mk m fl af =>
        cases h
        rfl
  | cons f fs' ih =>
    intro h
    rw [List.foldl_cons]
    have h' : (markDoneIf f s).file ∈ fs' ∨ (markDoneIf f s).mark = RefMark.done := by
      rw [markDoneIf_file]
      unfold markDoneIf
      rcases h with h | h
      · rcases List.mem_cons.mp h with h1 | h1
        · subst h1
          cases hm : s.mark with
          | raw => right; simp [hm]
          | done => right; split <;> simp [hm]
        · exact Or.inl h1
      · right
        rw [h]
        split <;> first
          | rfl
          | exact h
    have h2 := ih (markDoneIf f s) h'
    rw [markDoneIf_file, markDoneIf_after] at h2
    exact h2

theorem foldl_map_markDoneIf (fs : List (List Char)) (segs : List RefSeg) :
    fs.foldl (fun sg f => sg.map (markDoneIf f)) segs =
      segs.map (fun s => fs.foldl (fun t f => markDoneIf f t) s) := by
  induction fs generalizing segs with
  | nil => simp
  | cons f fs' ih =>
    rw [List.foldl_cons, ih, List.map_map]
    apply List.map_congr_left
    intro s _
    rfl

theorem rawCount_all_raw (f : List Char) (segs : List RefSeg)
    (h : ∀ s ∈ segs, s.mark = RefMark.raw) :
    rawCount f segs = (segs.filter (fun s => s.file == f)).length := by
  induction segs with
  | nil => rfl
  | cons s rest ih =>
    have hm := h s (List.mem_cons_self _ _)
    have hrest := fun t ht => h t (List.mem_cons_of_mem _ ht)
    have ihr := ih hrest
    unfold rawCount at ihr ⊢
    rw [List.filter_cons, List.filter_cons]
    by_cases hfe : s.file = f
    · simp [hm, hfe, ihr]
    · simp [hm, hfe, ihr]

theorem doneCount_all_raw (f : List Char) (segs : List RefSeg)
    (h : ∀ s ∈ segs, s.mark = RefMark.raw) :
    doneCount f segs = 0 := by
  induction segs with
  | nil => rfl
  | cons s rest ih =>
    have hm := h s (List.mem_cons_self _ _)
    have hrest := fun t ht => h t (List.mem_cons_of_mem _ ht)
    have ihr := ih hrest
    unfold doneCount at ihr ⊢
    rw [List.filter_cons]
    simp [hm, ihr]

theorem rawCount_final (files : List (List Char)) (segs : List RefSeg) (f : List Char)
    (hsegs : ∀ s ∈ segs, s.file ∈ files) :
    rawCount f (segs.map (fun s => files.foldl (fun t g => markDoneIf g t) s)) = 0 := by
  induction segs with
  | nil => rfl
  | cons s rest ih =>
    have hmem := hsegs s (List.mem_cons_self _ _)
    have hrest := fun t ht => hsegs t (List.mem_cons_of_mem _ ht)
    have ihr := ih hrest
    rw [List.map_cons]
    unfold rawCount at ihr ⊢
    rw [List.filter_cons]
    rw [fold_markDoneIf_done files s (Or.inl hmem)]
    simp [ihr]

theorem doneCount_final (files : List (List Char)) (segs : List RefSeg) (f : List Char)
    (hsegs : ∀ s ∈ segs, s.file ∈ files) :
    doneCount f (segs.map (fun s => files.foldl (fun t g => markDoneIf g t) s)) =
      (segs.filter (fun s => s.file == f)).length := by
  induction segs with
  | nil => rfl
  | cons s rest ih =>
    have hmem := hsegs s (List.mem_cons_self _ _)
    have hrest := fun t ht => hsegs t (List.mem_cons_of_mem _ ht)
    have ihr := ih hrest
    rw [List.map_cons]
    unfold doneCount at ihr ⊢
    rw [List.filter_cons, List.filter_cons]
    rw [fold_markDoneIf_done files s (Or.inl hmem)]
    by_cases hfe : s.file = f
    · simp [hfe, ihr]
    · simp [hfe, ihr]

theorem segsOK_final (files : List (List Char)) (segs : List RefSeg)
    (hsegs : SegsOK files segs) :
    SegsOK files (segs.map (fun s => files.foldl (fun t g => markDoneIf g t) s)) := by
  intro t ht
  obtain ⟨s, hs, rfl⟩ := List.mem_map.mp ht
  obtain ⟨h1, h2⟩ := hsegs s hs
  rw [fold_markDoneIf_done files s (Or.inl h1)]
  exact ⟨h1, h2⟩

theorem occCount_renderBody_ref (ym pre : List Char)
    (f : List Char) (segs : List RefSeg) (hgf : goodImageName f)
    (hpre : chunkSafe pre) :
    occCount (refPat f) (renderBody ym pre segs) =
      occCount (refPat f) (renderSegs ym segs) :=
  occCount_append_clean _ _ _
    (cleanSplit_chunk_ref f pre (renderSegs ym segs) hgf hpre (tailShape_renderSegs ym segs))

theorem occCount_renderBody_img (ym pre : List Char) (f : List Char) (segs : List RefSeg)
    (hym : ymGood ym) (hpre : chunkSafe pre) :
    occCount (imgPat ym f) (renderBody ym pre segs) =
      occCount (imgPat ym f) (renderSegs ym segs) :=
  occCount_append_clean _ _ _
    (cleanSplit_chunk_img ym f pre (renderSegs ym segs) hym hpre (tailShape_renderSegs ym segs))

theorem sum_map_one (l : List (List Char)) :
    (l.map (fun _ => (1 : Nat))).sum = l.length := by
  induction l with
  | nil => rfl
  | cons a as ih =>
    simp [ih]
    omega

/-- **C7.** Round-trip image reference count: for a draft body that references
each of the document's N images exactly once as `images/<filename>` (modelled by
`renderBody` over raw reference segments whose interstitial text is free of the
relevant patterns), with every image present on disk at copy time and a parsable
publish date, `HandleImagesForPublishingAsync` succeeds and the returned body
contains, for every image, exactly one occurrence of the rewritten pattern
`/img/<YYYY>/<MM>/<filename>` and zero remaining occurrences of
`images/<filename>` — N rewritten occurrences in total. -/
theorem c7_image_rewrite_roundtrip
    (imagePaths : List (List Char)) (onDisk : List Char → Bool)
    (publishDate : List Char) (d : PDate) (pre : List Char) (segs : List RefSeg)
    (hparse : tryParseDate publishDate = some d)
    (hne : imagePaths ≠ [])
    (hdisk : ∀ p ∈ imagePaths, onDisk p = true)
    (hgood : ∀ g ∈ imagePaths.map fileNameOf, goodImageName g)
    (hpair : ∀ a ∈ imagePaths.map fileNameOf, ∀ b ∈ imagePaths.map fileNameOf,
      a ≠ b → ¬ a <+: b)
    (hpre : chunkSafe pre)
    (hsegs : SegsOK (imagePaths.map fileNameOf) segs)
    (hraw : ∀ s ∈ segs, s.mark = RefMark.raw)
    (hcount : ∀ g ∈ imagePaths.map fileNameOf,
      (segs.filter (fun s => s.file == g)).length = 1) :
    (∀ g ∈ imagePaths.map fileNameOf,
      occCount (refPat g) (renderBody (yearMonthOf d) pre segs) = 1 ∧
      occCount (imgPat (yearMonthOf d) g) (renderBody (yearMonthOf d) pre segs) = 0) ∧
    ∃ final,
      handleImagesForPublishing (renderBody (yearMonthOf d) pre segs)
        imagePaths onDisk publishDate = some final ∧
      (∀ g ∈ imagePaths.map fileNameOf,
        occCount (refPat g) final = 0 ∧
        occCount (imgPat (yearMonthOf d) g) final = 1) ∧
      ((imagePaths.map fileNameOf).map
        (fun g => occCount (imgPat (yearMonthOf d) g) final)).sum =
        imagePaths.length := by
  have hym := ymGood_yearMonthOf d
  constructor
  · intro g hg
    constructor
    · rw [occCount_renderBody_ref _ _ _ _ (hgood g hg) hpre,
        occCount_renderSegs_ref _ _ g segs hym hgood hpair hg hsegs,
        rawCount_all_raw g segs hraw, hcount g hg]
    · rw [occCount_renderBody_img _ _ _ _ hym hpre,
        occCount_renderSegs_img _ _ g segs hym hgood hpair hg hsegs,
        doneCount_all_raw g segs hraw]
  · have hisEmpty : imagePaths.isEmpty = false := by
      cases imagePaths with
      | nil => exact absurd rfl hne
      | cons a as => rfl
    have hsegsF : ∀ s ∈ segs, s.file ∈ imagePaths.map fileNameOf :=
      fun s hs => (hsegs s hs).1
    have hOK2 := segsOK_final (imagePaths.map fileNameOf) segs hsegs
    have hzero : ∀ g ∈ imagePaths.map fileNameOf,
        occCount (refPat g) (renderBody (yearMonthOf d) pre
          (segs.map (fun s =>
            (imagePaths.map fileNameOf).foldl (fun t f => markDoneIf f t) s))) = 0 := by
      intro g hg
      rw [occCount_renderBody_ref _ _ _ _ (hgood g hg) hpre,
        occCount_renderSegs_ref _ _ g _ hym hgood hpair hg hOK2,
        rawCount_final (imagePaths.map fileNameOf) segs g hsegsF]
    have hone : ∀ g ∈ imagePaths.map fileNameOf,
        occCount (imgPat (yearMonthOf d) g) (renderBody (yearMonthOf d) pre
          (segs.map (fun s =>
            (imagePaths.map fileNameOf).foldl (fun t f => markDoneIf f t) s))) = 1 := by
      intro g hg
      rw [occCount_renderBody_img _ _ _ _ hym hpre,
        occCount_renderSegs_img _ _ g _ hym hgood hpair hg hOK2,
        doneCount_final (imagePaths.map fileNameOf) segs g hsegsF, hcount g hg]
    refine ⟨renderBody (yearMonthOf d) pre
      (segs.map (fun s =>
        (imagePaths.map fileNameOf).foldl (fun t f => markDoneIf f t) s)), ?_,
      fun g hg => ⟨hzero g hg, hone g hg⟩, ?_⟩
    · unfold handleImagesForPublishing
      rw [hisEmpty]
      simp only [Bool.false_eq_true, if_false]
      rw [hparse]
      show some (rewriteImages (yearMonthOf d) onDisk
        (renderBody (yearMonthOf d) pre segs) imagePaths) = some _
      congr 1
      rw [rewriteImages_eq_rewriteFiles _ _ _ _ hdisk]
      rw [rewriteFiles_renderBody (yearMonthOf d) pre (imagePaths.map fileNameOf)
        hym hgood hpair hpre (imagePaths.map fileNameOf) segs (fun f hf => hf) hsegs]
      rw [foldl_map_markDoneIf]
    · rw [List.map_congr_left hone, List.map_map]
      exact sum_map_one imagePaths

def c7Paths : List (List Char) := [("a.png").data, ("b.png").data]

def c7Date : PDate := ⟨2025, 1, 5⟩

def c7PreChunk : List Char := ("Intro ").data

def c7Segs : List RefSeg :=
  [⟨RefMark.raw, ("a.png").data, (" text ").data⟩,
   ⟨RefMark.raw, ("b.png").data, (" end").data⟩]

theorem c7_image_rewrite_roundtrip_witness :
    (∀ g ∈ c7Paths.map fileNameOf,
      occCount (refPat g) (renderBody (yearMonthOf c7Date) c7PreChunk c7Segs) = 1 ∧
      occCount (imgPat (yearMonthOf c7Date) g)
        (renderBody (yearMonthOf c7Date) c7PreChunk c7Segs) = 0) ∧
    ∃ final,
      handleImagesForPublishing (renderBody (yearMonthOf c7Date) c7PreChunk c7Segs)
        c7Paths (fun _ => true) (("2025-01-05").data) = some final ∧
      (∀ g ∈ c7Paths.map fileNameOf,
        occCount (refPat g) final = 0 ∧
        occCount (imgPat (yearMonthOf c7Date) g) final = 1) ∧
      ((c7Paths.map fileNameOf).map
        (fun g => occCount (imgPat (yearMonthOf c7Date) g) final)).sum =
        c7Paths.length :=
  c7_image_rewrite_roundtrip c7Paths (fun _ => true) (("2025-01-05").data) c7Date
    c7PreChunk c7Segs (by decide) (by decide) (by decide) (by decide) (by decide)
    (by decide) (by unfold SegsOK; decide) (by decide) (by decide)
